import Mathlib

/-!
Verification of the Merkle-tree implementation in `merkle.go`.

The Go program builds a binary hash tree over an ordered list of content
items and extracts inclusion-proof paths.  Go's pointer-linked `Node`
graph is embedded shallowly as an *arena*: a `List (Node α)` in allocation
order, with `*Node` pointers rendered as arena indices (`Option Nat` for
possibly-nil pointers).  Byte slices (`[]byte`) are `List Nat`;
`bytes.Equal` is list equality.  The `Content` interface is a pair of
functions: `calc : α → Except ε (List Nat)` (Go `CalculateHash`) and
`eqf : α → α → Except ε Bool` (Go `Equals`); Go `error` results are
`Except`.  The `hash.Hash` strategy, used by `buildIntermediate` as
write-then-sum, is a pure digest function `List Nat → List Nat`;
`NewTree` instantiates it with `md5`, implemented below in full.
-/

/-- Go `Node`: a vertex of the tree.  `Parent`, `Left`, `Right` are the
`*Node` pointers, rendered as arena indices (`none` = nil). -/
structure Node (α : Type) where
  Parent : Option Nat := none
  Left : Option Nat := none
  Right : Option Nat := none
  leaf : Bool := false
  dup : Bool := false
  Hash : List Nat := []
  C : Option α := none
deriving DecidableEq

instance {α : Type} : Inhabited (Node α) := ⟨{}⟩

/-- Dereference an arena index (a `*Node`).  Out-of-range indices give the
default node; they never occur in arenas produced by the builder. -/
def getNode {α : Type} (A : List (Node α)) (i : Nat) : Node α :=
  (A[i]?).getD default

/-- Go `nl[i].Parent = n`: update the parent pointer of node `i`. -/
def setParent {α : Type} (A : List (Node α)) (i : Nat) (p : Nat) : List (Node α) :=
  A.set i { getNode A i with Parent := some p }

/-- A node with its parent pointer forgotten; used to state that the builder
only ever mutates `Parent` fields of existing nodes. -/
def eraseParent {α : Type} (n : Node α) : Node α :=
  { n with Parent := none }

/-! ### The md5 digest (Go `crypto/md5`), the default hash strategy

Implemented from the MD5 algorithm over byte lists, with 32-bit words as
`Nat` reduced `% 2 ^ 32` at every addition. -/

/-- Rotate a 32-bit word left by `n` bits. -/
def leftrot (x n : Nat) : Nat :=
  ((x <<< n) ||| (x >>> (32 - n))) % 4294967296

/-- MD5 round constants `K[i] = floor(2^32 * |sin(i+1)|)`. -/
def md5K : List Nat :=
  [0xd76aa478, 0xe8c7b756, 0x242070db, 0xc1bdceee,
   0xf57c0faf, 0x4787c62a, 0xa8304613, 0xfd469501,
   0x698098d8, 0x8b44f7af, 0xffff5bb1, 0x895cd7be,
   0x6b901122, 0xfd987193, 0xa679438e, 0x49b40821,
   0xf61e2562, 0xc040b340, 0x265e5a51, 0xe9b6c7aa,
   0xd62f105d, 0x02441453, 0xd8a1e681, 0xe7d3fbc8,
   0x21e1cde6, 0xc33707d6, 0xf4d50d87, 0x455a14ed,
   0xa9e3e905, 0xfcefa3f8, 0x676f02d9, 0x8d2a4c8a,
   0xfffa3942, 0x8771f681, 0x6d9d6122, 0xfde5380c,
   0xa4beea44, 0x4bdecfa9, 0xf6bb4b60, 0xbebfbc70,
   0x289b7ec6, 0xeaa127fa, 0xd4ef3085, 0x04881d05,
   0xd9d4d039, 0xe6db99e5, 0x1fa27cf8, 0xc4ac5665,
   0xf4292244, 0x432aff97, 0xab9423a7, 0xfc93a039,
   0x655b59c3, 0x8f0ccc92, 0xffeff47d, 0x85845dd1,
   0x6fa87e4f, 0xfe2ce6e0, 0xa3014314, 0x4e0811a1,
   0xf7537e82, 0xbd3af235, 0x2ad7d2bb, 0xeb86d391]

/-- MD5 per-round left-rotation amounts. -/
def md5S : List Nat :=
  [7, 12, 17, 22, 7, 12, 17, 22, 7, 12, 17, 22, 7, 12, 17, 22,
   5, 9, 14, 20, 5, 9, 14, 20, 5, 9, 14, 20, 5, 9, 14, 20,
   4, 11, 16, 23, 4, 11, 16, 23, 4, 11, 16, 23, 4, 11, 16, 23,
   6, 10, 15, 21, 6, 10, 15, 21, 6, 10, 15, 21, 6, 10, 15, 21]

/-- MD5 round mixing function (round selected by `i`). -/
def md5F (i b c d : Nat) : Nat :=
  if i < 16 then (b &&& c) ||| ((4294967295 ^^^ b) &&& d)
  else if i < 32 then (d &&& b) ||| ((4294967295 ^^^ d) &&& c)
  else if i < 48 then b ^^^ c ^^^ d
  else c ^^^ (b ||| (4294967295 ^^^ d))

/-- MD5 message-word index for round `i`. -/
def md5G (i : Nat) : Nat :=
  if i < 16 then i
  else if i < 32 then (5 * i + 1) % 16
  else if i < 48 then (3 * i + 5) % 16
  else (7 * i) % 16

/-- Group a byte list into little-endian 32-bit words (four bytes each). -/
def wordsOfBytes : List Nat → List Nat
  | b0 :: b1 :: b2 :: b3 :: rest =>
      (b0 + 256 * b1 + 65536 * b2 + 16777216 * b3) :: wordsOfBytes rest
  | _ => []

/-- A 32-bit word as four little-endian bytes. -/
def wordToBytes (w : Nat) : List Nat :=
  [w % 256, w / 256 % 256, w / 65536 % 256, w / 16777216 % 256]

/-- Split a byte list into 64-byte chunks.  The fuel argument (one unit per
chunk suffices; the byte length is used) only makes the recursion
structural: each step removes 64 bytes, so the fuel never runs out. -/
def chunksGo : Nat → List Nat → List (List Nat)
  | 0, _ => []
  | f + 1, l => if l = [] then [] else l.take 64 :: chunksGo f (l.drop 64)

/-- Split a byte list into 64-byte chunks. -/
def chunksOf64 (l : List Nat) : List (List Nat) := chunksGo l.length l

/-- MD5 padding: append `0x80`, zero-pad to 56 mod 64, then the message bit
length as eight little-endian bytes. -/
def md5Pad (msg : List Nat) : List Nat :=
  msg ++ [128] ++ List.replicate ((119 - msg.length % 64) % 64) 0 ++
    (List.range 8).map (fun k => ((8 * msg.length) >>> (8 * k)) % 256)

/-- Process one 64-byte chunk (as 16 words `M`) into the running state. -/
def md5Chunk (M : List Nat) (st : Nat × Nat × Nat × Nat) : Nat × Nat × Nat × Nat :=
  let r := (List.range 64).foldl
    (fun abcd i =>
      match abcd with
      | (a, b, c, d) =>
          let f := (md5F i b c d + a + md5K.getD i 0 + M.getD (md5G i) 0) % 4294967296
          (d, (b + leftrot f (md5S.getD i 0)) % 4294967296, b, c))
    st
  match st, r with
  | (a0, b0, c0, d0), (a, b, c, d) =>
      ((a0 + a) % 4294967296, (b0 + b) % 4294967296,
       (c0 + c) % 4294967296, (d0 + d) % 4294967296)

/-- The MD5 digest of a byte list: sixteen bytes. -/
def md5 (msg : List Nat) : List Nat :=
  let st := (chunksOf64 (md5Pad msg)).foldl
    (fun st ch => md5Chunk (wordsOfBytes ch) st)
    (0x67452301, 0xefcdab89, 0x98badcfe, 0x10325476)
  match st with
  | (a, b, c, d) => wordToBytes a ++ wordToBytes b ++ wordToBytes c ++ wordToBytes d

/-! ### The tree builder (Go `buildWithContent` / `buildIntermediate`) -/

/-- Go `error` results of tree construction: `errors.New("error: cannot
construct tree with no content")` for empty input, or a content digest
error propagated from `CalculateHash` with its payload unchanged. -/
inductive BuildError (ε : Type) where
  | emptyInput : BuildError ε
  | digestError (e : ε) : BuildError ε
deriving DecidableEq

/-- The leaf-building loop of `buildWithContent`: one leaf node per content
item, in input order, aborting at the first digest failure. -/
def buildLeafs {α ε : Type} (calcHash : α → Except ε (List Nat)) :
    List α → Except ε (List (Node α))
  | [] => .ok []
  | c :: cs =>
      match calcHash c with
      | .error e => .error e
      | .ok h =>
          match buildLeafs calcHash cs with
          | .error e => .error e
          | .ok rest => .ok ({ Hash := h, C := some c, leaf := true } :: rest)

/-- The odd-count fix-up of `buildWithContent`: append one fresh duplicate
leaf carrying the last leaf's hash and content reference. -/
def padLeafs {α : Type} (leafs : List (Node α)) : List (Node α) :=
  if leafs.length % 2 = 1 then
    leafs ++ [{ Hash := (getNode leafs (leafs.length - 1)).Hash,
                C := (getNode leafs (leafs.length - 1)).C,
                leaf := true, dup := true }]
  else leafs

/-- The body of `buildIntermediate`'s loop for one pair `(left, right) =
(i, j)`: allocate the parent node `n` with `Left = nl[left]`, `Right =
nl[right]` and the strategy hash of the concatenated child hashes, then
execute `nl[left].Parent = n` and `nl[right].Parent = n` (both run even
when `left == right`).  The new node's id is the pre-call arena length. -/
def pairOne {α : Type} (s : List Nat → List Nat)
    (A : List (Node α)) (i j : Nat) : List (Node α) :=
  let n : Node α := { Left := some i, Right := some j,
                      Hash := s ((getNode A i).Hash ++ (getNode A j).Hash) }
  setParent (setParent (A ++ [n]) i A.length) j A.length

/-- One pass of `buildIntermediate`'s loop over the level `nl`: allocate a
parent node for each disjoint pair `(i, i+1)` — pairing a lone final node
with itself (`right = i` when `i+1 == len(nl)`) — and wire both children's
parent pointers to it.  Returns the grown arena and the new level's ids
(Go's `nodes`). -/
def pairStep {α : Type} (s : List Nat → List Nat) :
    List Nat → List (Node α) → List (Node α) × List Nat
  | [], A => (A, [])
  | [i], A => (pairOne s A i i, [A.length])
  | i :: j :: rest, A =>
      let r := pairStep s rest (pairOne s A i j)
      (r.1, A.length :: r.2)

/-- The recursion of Go `buildIntermediate`, made structural on a fuel
argument: each level strictly shrinks (to `ceil(n/2)`), so fuel equal to
the starting level's length always suffices (`buildIntermediateGo_congr`
below proves fuel-irrelevance beyond that bound).  A level of fewer than
two nodes makes the Go loop diverge and is never produced by
`buildWithContent`; the model returns a junk root there, as it does on
exhausted fuel. -/
def buildIntermediateGo {α : Type} (s : List Nat → List Nat) :
    Nat → List Nat → List (Node α) → List (Node α) × Nat
  | 0, _, A => (A, 0)
  | fuel + 1, nl, A =>
      if nl.length < 2 then (A, 0)
      else
        let r := pairStep s nl A
        if nl.length = 2 then (r.1, r.2.headD 0)
        else buildIntermediateGo s fuel r.2 r.1

/-- Go `buildIntermediate`: reduce the level `nl` pairwise until one node
remains; a level of exactly two nodes returns its single parent directly.
Returns the final arena and the root's id.  (The Go version also returns a
`hash.Hash.Write` error, which md5 — and any pure strategy — never
produces, so the model is error-free.) -/
def buildIntermediate {α : Type} (s : List Nat → List Nat)
    (nl : List Nat) (A : List (Node α)) : List (Node α) × Nat :=
  buildIntermediateGo s nl.length nl A

/-- Go `buildWithContent`: digest each content item into a leaf, pad an odd
leaf count with a duplicate, and reduce to the root.  Returns the root id,
the leaf ids (Go's `leafs` pointer list) and the arena. -/
def buildWithContent {α ε : Type} (s : List Nat → List Nat)
    (calcHash : α → Except ε (List Nat)) (cs : List α) :
    Except (BuildError ε) (Nat × List Nat × List (Node α)) :=
  if cs.length = 0 then .error .emptyInput
  else
    match buildLeafs calcHash cs with
    | .error e => .error (.digestError e)
    | .ok leafs0 =>
        let leafs := padLeafs leafs0
        let r := buildIntermediate s (List.range leafs.length) leafs
        .ok (r.2, List.range leafs.length, r.1)

/-- Go `MerkleTree`: the arena plus the root pointer, the cached root hash
and the leaf pointer list.  (The `hashStrategy` field is carried as an
explicit parameter of the operations instead.) -/
structure MerkleTree (α : Type) where
  arena : List (Node α)
  Root : Nat
  merkleRoot : List Nat
  Leafs : List Nat
deriving DecidableEq

instance {α : Type} : Inhabited (MerkleTree α) := ⟨⟨[], 0, [], []⟩⟩

/-- Go `NewTree` generalized over the hash strategy stored in the tree:
build and package the tree, caching `root.Hash` as `merkleRoot`. -/
def newTreeWith {α ε : Type} (s : List Nat → List Nat)
    (calcHash : α → Except ε (List Nat)) (cs : List α) :
    Except (BuildError ε) (MerkleTree α) :=
  match buildWithContent s calcHash cs with
  | .error e => .error e
  | .ok (root, leafs, arena) => .ok ⟨arena, root, (getNode arena root).Hash, leafs⟩

/-- Go `NewTree`: the published constructor, with `md5` as the default
hash strategy. -/
def NewTree {α ε : Type} (calcHash : α → Except ε (List Nat)) (cs : List α) :
    Except (BuildError ε) (MerkleTree α) :=
  newTreeWith md5 calcHash cs

/-! ### Proof-path extraction (Go `GetMerklePath`) -/

/-- The upward walk of `GetMerklePath`: from `current` with parent pointer
`parentOpt`, at each level compare the parent's left child's hash with the
current hash; on a match emit the right child's hash with marker `1`
("right leaf"), otherwise the left child's hash with marker `0`.  The Go
loop terminates because parent ids strictly exceed child ids in built
arenas, so `fuel := arena length` always suffices; the fuel-exhausted case
is unreachable there. -/
def walkUp {α : Type} (A : List (Node α)) :
    Nat → Nat → Option Nat → List (List Nat) × List Int
  | _, _, none => ([], [])
  | 0, _, some _ => ([], [])
  | fuel + 1, current, some p =>
      let pn := getNode A p
      let r := walkUp A fuel p pn.Parent
      if (getNode A (pn.Left.getD 0)).Hash = (getNode A current).Hash then
        ((getNode A (pn.Right.getD 0)).Hash :: r.1, 1 :: r.2)
      else
        ((getNode A (pn.Left.getD 0)).Hash :: r.1, 0 :: r.2)

/-- The leaf scan of `GetMerklePath`: test each leaf's content against the
target in order; the first equality error aborts, the first match starts
the upward walk, and a completed scan without a match returns the empty
result with no error (Go's `nil, nil, nil`).  A leaf with no content would
make Go panic; built trees never produce one, and the model skips it. -/
def getMerklePathAux {α ε : Type} (eqf : α → α → Except ε Bool)
    (A : List (Node α)) (content : α) (fuel : Nat) :
    List Nat → Except ε (List (List Nat) × List Int)
  | [] => .ok ([], [])
  | l :: rest =>
      match (getNode A l).C with
      | none => getMerklePathAux eqf A content fuel rest
      | some c =>
          match eqf c content with
          | .error e => .error e
          | .ok true => .ok (walkUp A fuel l (getNode A l).Parent)
          | .ok false => getMerklePathAux eqf A content fuel rest

/-- Go `GetMerklePath`: sibling digests and direction markers (`1` =
sibling concatenated on the right, `0` = on the left) from the first
matching leaf up to the root, leaf-to-root order. -/
def GetMerklePath {α ε : Type} (eqf : α → α → Except ε Bool)
    (m : MerkleTree α) (content : α) : Except ε (List (List Nat) × List Int) :=
  getMerklePathAux eqf m.arena content m.arena.length m.Leafs

/-! ### Specification-side definitions

`foldPath` is the verification fold stated by the round-trip proof law;
`combine`/`reduceLevels` are the hash-level (pointer-free) rendering of
one `buildIntermediate` pass and of the whole reduction, used to relate
root digests of different builds. -/

/-- Fold a Merkle path into a starting digest: marker `1` concatenates the
sibling on the right of the running digest, marker `0` on the left, hashing
each concatenation with the strategy. -/
def foldPath (s : List Nat → List Nat) :
    List Nat → List (List Nat) → List Int → List Nat
  | h, sib :: path, d :: idx =>
      foldPath s (if d = 1 then s (h ++ sib) else s (sib ++ h)) path idx
  | h, _, _ => h

/-- The digests of one reduced level: adjacent pairs hashed left-then-right,
a lone final digest hashed with itself — the hash content of `pairStep`. -/
def combine (s : List Nat → List Nat) : List (List Nat) → List (List Nat)
  | [] => []
  | [h] => [s (h ++ h)]
  | h1 :: h2 :: rest => s (h1 ++ h2) :: combine s rest

/-- The root digest as a pure fold of levels — the hash content of
`buildIntermediate`. -/
def reduceLevels (s : List Nat → List Nat) : List (List Nat) → List Nat
  | [] => []
  | [h] => h
  | h1 :: h2 :: rest => reduceLevels s (combine s (h1 :: h2 :: rest))
termination_by l => l.length
decreasing_by
  have key : ∀ (n : Nat) (m : List (List Nat)), m.length ≤ n →
      (combine s m).length = (m.length + 1) / 2 := by
    intro n
    induction n with
    | zero =>
        intro m hm
        cases m with
        | nil => simp [combine]
        | cons a t => simp at hm
    | succ k ih =>
        intro m hm
        cases m with
        | nil => simp [combine]
        | cons a t =>
            cases t with
            | nil => simp [combine]
            | cons b t2 =>
                simp only [combine, List.length_cons]
                rw [ih t2 (by simp at hm; omega)]
                omega
  rw [key (rest.length + 2) (h1 :: h2 :: rest) (by simp)]
  simp
  omega

/-- Exchange the entries at positions `i` and `j` (identity out of range). -/
def swapL {α : Type} (l : List α) (i j : Nat) : List α :=
  match l[i]?, l[j]? with
  | some a, some b => (l.set i b).set j a
  | _, _ => l

/-- Invariant of a fully built arena: the root is parentless, every other
node has a parent of larger id of which it is a child, and every node with
children carries the strategy hash of their concatenated hashes. -/
structure InvT {α : Type} (s : List Nat → List Nat)
    (A : List (Node α)) (root : Nat) : Prop where
  rootLt : root < A.length
  rootTop : (getNode A root).Parent = none
  covered : ∀ x, x < A.length → x ≠ root → ∃ p l r,
      (getNode A x).Parent = some p ∧ x < p ∧ p < A.length ∧
      (getNode A p).Left = some l ∧ (getNode A p).Right = some r ∧
      (x = l ∨ x = r)
  hashed : ∀ p, p < A.length → ∀ l r, (getNode A p).Left = some l →
      (getNode A p).Right = some r →
      l < p ∧ r < p ∧ (getNode A p).Hash = s ((getNode A l).Hash ++ (getNode A r).Hash)

/-- Invariant of the builder state between `buildIntermediate` levels:
`nl` is the current level (distinct ids in the arena), every node outside
the level is already parented into it, and all composed hashes are in
place. -/
structure LevelInv {α : Type} (s : List Nat → List Nat)
    (A : List (Node α)) (nl : List Nat) : Prop where
  nodup : nl.Nodup
  bounded : ∀ i ∈ nl, i < A.length
  covered : ∀ x, x < A.length → x ∉ nl → ∃ p l r,
      (getNode A x).Parent = some p ∧ x < p ∧ p < A.length ∧
      (getNode A p).Left = some l ∧ (getNode A p).Right = some r ∧
      (x = l ∨ x = r)
  hashed : ∀ p, p < A.length → ∀ l r, (getNode A p).Left = some l →
      (getNode A p).Right = some r →
      l < p ∧ r < p ∧ (getNode A p).Hash = s ((getNode A l).Hash ++ (getNode A r).Hash)

/-! ### Concrete instances used to witness the theorems -/

/-- A tiny injective-enough demonstration strategy (fast to evaluate). -/
def demoS : List Nat → List Nat := fun l => [l.foldl (fun a b => a + 2 * b + 1) 0]

/-- Demonstration content: a `Nat` digesting to its own single byte. -/
def demoCalc : Nat → Except Unit (List Nat) := fun n => .ok [n]

/-- Demonstration equality: plain decidable equality, never failing. -/
def demoEq : Nat → Nat → Except Unit Bool := fun a b => .ok (a == b)

/-- Demonstration equality that fails on the item `3`. -/
def demoEqErr : Nat → Nat → Except Unit Bool :=
  fun a b => if a = 3 then .error () else .ok (a == b)

/-- Demonstration content whose digest computation fails on the item `2`. -/
def demoCalcErr : Nat → Except Unit (List Nat) :=
  fun n => if n = 2 then .error () else .ok [n]

/-- The tree over `[1, 2, 3, 4]` with the demonstration strategy. -/
def demoT : MerkleTree Nat := (newTreeWith demoS demoCalc [1, 2, 3, 4]).toOption.getD default

/-- The tree over the odd list `[1, 2, 3]`. -/
def demoT3 : MerkleTree Nat := (newTreeWith demoS demoCalc [1, 2, 3]).toOption.getD default

/-- The tree over `[1, 2, 3, 4, 5, 6]`: its middle level has three nodes. -/
def demoT6 : MerkleTree Nat :=
  (newTreeWith demoS demoCalc [1, 2, 3, 4, 5, 6]).toOption.getD default

/-- The tree over `[1, 2, 3, 4]` with the default md5 strategy (`NewTree`). -/
def demoMd5T : MerkleTree Nat := (NewTree demoCalc [1, 2, 3, 4]).toOption.getD default

/-- The proof path of content `3` in `demoT`. -/
def demoPathRes : Except Unit (List (List Nat) × List Int) := GetMerklePath demoEq demoT 3

/-- Sibling digests of `demoPathRes`. -/
def demoPath : List (List Nat) := (demoPathRes.toOption.getD ([], [])).1

/-- Direction markers of `demoPathRes`. -/
def demoIdx : List Int := (demoPathRes.toOption.getD ([], [])).2

/-- A three-leaf arena for exercising `pairStep` directly. -/
def arena3 : List (Node Nat) :=
  [{ Hash := [1], leaf := true, C := some 1 },
   { Hash := [2], leaf := true, C := some 2 },
   { Hash := [3], leaf := true, C := some 3 }]

/-- Content digesting to the empty byte slice (`false`) or to `[1]`
(`true`): digests of unequal lengths, legal for Go's `CalculateHash`. -/
def calc9 : Bool → Except Unit (List Nat) := fun b => if b then .ok [1] else .ok []

/-- `NewTree` over `[false, true]` under `calc9`. -/
def t9a : MerkleTree Bool := (NewTree calc9 [false, true]).toOption.getD default

/-- `NewTree` over the swapped list `[true, false]` under `calc9`. -/
def t9b : MerkleTree Bool := (NewTree calc9 [true, false]).toOption.getD default

/-- An injective strategy on two-byte inputs: the Cantor pairing of the
first two entries, as a one-entry digest. -/
def pairS : List Nat → List Nat := fun x => [Nat.pair (x.getD 0 0) (x.getD 1 0)]

/-- `newTreeWith pairS` over `[1, 2]`. -/
def t9c : MerkleTree Nat := (newTreeWith pairS demoCalc [1, 2]).toOption.getD default

/-- `newTreeWith pairS` over the swapped list `[2, 1]`. -/
def t9d : MerkleTree Nat := (newTreeWith pairS demoCalc [2, 1]).toOption.getD default

/-! ## Theorems

First the supporting lemma layer: arena accesses, the effect of one
`pairOne`, the shape of one `pairStep` pass, the level invariant through
`buildIntermediate`, and the characterization of `buildWithContent`.
The claim theorems follow at the end. -/

theorem getNode_append_lt {α : Type} (A B : List (Node α)) {x : Nat}
    (h : x < A.length) : getNode (A ++ B) x = getNode A x := by
  simp [getNode, List.getElem?_append_left h]

theorem getNode_append_self {α : Type} (A : List (Node α)) (n : Node α) :
    getNode (A ++ [n]) A.length = n := by
  simp [getNode, List.getElem?_concat_length]

theorem setParent_length {α : Type} (A : List (Node α)) (i p : Nat) :
    (setParent A i p).length = A.length := by
  simp [setParent]

theorem getNode_setParent_self {α : Type} (A : List (Node α)) {i : Nat} (p : Nat)
    (h : i < A.length) :
    getNode (setParent A i p) i = { getNode A i with Parent := some p } := by
  simp [setParent, getNode, List.getElem?_set_self h]

theorem getNode_setParent_ne {α : Type} (A : List (Node α)) {i j : Nat} (p : Nat)
    (h : i ≠ j) : getNode (setParent A i p) j = getNode A j := by
  simp [setParent, getNode, List.getElem?_set_ne h]

theorem eraseParent_update {α : Type} (n : Node α) (p : Option Nat) :
    eraseParent { n with Parent := p } = eraseParent n := rfl

theorem eraseParent_fields {α : Type} {a b : Node α}
    (h : eraseParent a = eraseParent b) :
    a.Left = b.Left ∧ a.Right = b.Right ∧ a.leaf = b.leaf ∧
    a.dup = b.dup ∧ a.Hash = b.Hash ∧ a.C = b.C := by
  cases a
  cases b
  simp only [eraseParent, Node.mk.injEq] at h
  simp_all

theorem pairOne_length {α : Type} (s : List Nat → List Nat)
    (A : List (Node α)) (i j : Nat) : (pairOne s A i j).length = A.length + 1 := by
  simp [pairOne, setParent_length]

theorem getNode_pairOne_other {α : Type} (s : List Nat → List Nat)
    (A : List (Node α)) {i j x : Nat} (hx : x < A.length) (hxi : x ≠ i)
    (hxj : x ≠ j) : getNode (pairOne s A i j) x = getNode A x := by
  rw [pairOne]
  rw [getNode_setParent_ne _ _ (Ne.symm hxj), getNode_setParent_ne _ _ (Ne.symm hxi),
    getNode_append_lt _ _ hx]

theorem getNode_pairOne_right {α : Type} (s : List Nat → List Nat)
    (A : List (Node α)) {i j : Nat} (hj : j < A.length) (hij : i ≠ j) :
    getNode (pairOne s A i j) j = { getNode A j with Parent := some A.length } := by
  rw [pairOne]
  rw [getNode_setParent_self _ _ (by simp [setParent_length]; omega),
    getNode_setParent_ne _ _ hij, getNode_append_lt _ _ hj]

theorem getNode_pairOne_left {α : Type} (s : List Nat → List Nat)
    (A : List (Node α)) {i j : Nat} (hi : i < A.length) (hij : i ≠ j) :
    getNode (pairOne s A i j) i = { getNode A i with Parent := some A.length } := by
  rw [pairOne]
  rw [getNode_setParent_ne _ _ (Ne.symm hij),
    getNode_setParent_self _ _ (by simp [setParent_length]; omega),
    getNode_append_lt _ _ hi]

theorem getNode_pairOne_self {α : Type} (s : List Nat → List Nat)
    (A : List (Node α)) {i : Nat} (hi : i < A.length) :
    getNode (pairOne s A i i) i = { getNode A i with Parent := some A.length } := by
  rw [pairOne]
  rw [getNode_setParent_self _ _ (by simp [setParent_length]; omega),
    getNode_setParent_self _ _ (by simp; omega), getNode_append_lt _ _ hi]

theorem getNode_pairOne_new {α : Type} (s : List Nat → List Nat)
    (A : List (Node α)) {i j : Nat} (hi : i < A.length) (hj : j < A.length) :
    getNode (pairOne s A i j) A.length =
      { Left := some i, Right := some j,
        Hash := s ((getNode A i).Hash ++ (getNode A j).Hash) } := by
  rw [pairOne]
  rw [getNode_setParent_ne _ _ (by omega), getNode_setParent_ne _ _ (by omega),
    getNode_append_self]

theorem pairStep_len {α : Type} :
    ∀ (s : List Nat → List Nat) (nl : List Nat) (A : List (Node α)),
      (pairStep s nl A).1.length = A.length + (nl.length + 1) / 2
  | s, [], A => by simp [pairStep]
  | s, [i], A => by simp [pairStep, pairOne_length]
  | s, i :: j :: rest, A => by
      simp only [pairStep]
      rw [pairStep_len s rest (pairOne s A i j), pairOne_length]
      simp only [List.length_cons]
      omega

theorem pairStep_ids {α : Type} :
    ∀ (s : List Nat → List Nat) (nl : List Nat) (A : List (Node α)),
      (pairStep s nl A).2 = List.range' A.length ((nl.length + 1) / 2)
  | s, [], A => by simp [pairStep]
  | s, [i], A => by simp [pairStep]
  | s, i :: j :: rest, A => by
      simp only [pairStep]
      rw [pairStep_ids s rest (pairOne s A i j), pairOne_length]
      simp only [List.length_cons]
      rw [show (rest.length + 1 + 1 + 1) / 2 = (rest.length + 1) / 2 + 1 by omega,
        List.range'_succ]

theorem pairStep_untouched {α : Type} :
    ∀ (s : List Nat → List Nat) (nl : List Nat) (A : List (Node α)) (x : Nat),
      x < A.length → x ∉ nl → getNode (pairStep s nl A).1 x = getNode A x
  | s, [], A, x, hx, hmem => by simp [pairStep]
  | s, [i], A, x, hx, hmem => by
      simp only [List.mem_singleton] at hmem
      simp only [pairStep]
      exact getNode_pairOne_other s A hx hmem hmem
  | s, i :: j :: rest, A, x, hx, hmem => by
      simp only [List.mem_cons, not_or] at hmem
      obtain ⟨hxi, hxj, hxrest⟩ := hmem
      simp only [pairStep]
      rw [pairStep_untouched s rest (pairOne s A i j) x
        (by rw [pairOne_length]; omega) hxrest]
      exact getNode_pairOne_other s A hx hxi hxj

theorem pairStep_fields {α : Type} :
    ∀ (s : List Nat → List Nat) (nl : List Nat) (A : List (Node α)) (x : Nat),
      x < A.length →
      eraseParent (getNode (pairStep s nl A).1 x) = eraseParent (getNode A x)
  | s, [], A, x, hx => by simp [pairStep]
  | s, [i], A, x, hx => by
      simp only [pairStep]
      by_cases hxi : x = i
      · subst hxi
        rw [getNode_pairOne_self s A hx]
        exact eraseParent_update _ _
      · rw [getNode_pairOne_other s A hx hxi hxi]
  | s, i :: j :: rest, A, x, hx => by
      simp only [pairStep]
      rw [pairStep_fields s rest (pairOne s A i j) x (by rw [pairOne_length]; omega)]
      by_cases hxi : x = i
      · subst hxi
        by_cases hij : x = j
        · subst hij
          rw [getNode_pairOne_self s A hx]
          exact eraseParent_update _ _
        · rw [getNode_pairOne_left s A hx hij]
          exact eraseParent_update _ _
      · by_cases hxj : x = j
        · subst hxj
          rw [getNode_pairOne_right s A hx (Ne.symm hxi)]
          exact eraseParent_update _ _
        · rw [getNode_pairOne_other s A hx hxi hxj]

theorem pairStep_members {α : Type} :
    ∀ (s : List Nat → List Nat) (nl : List Nat) (A : List (Node α)),
      (∀ y ∈ nl, y < A.length) → nl.Nodup →
      ∀ x ∈ nl, ∃ p l r,
        (getNode (pairStep s nl A).1 x).Parent = some p ∧
        A.length ≤ p ∧ p < (pairStep s nl A).1.length ∧
        (getNode (pairStep s nl A).1 p).Left = some l ∧
        (getNode (pairStep s nl A).1 p).Right = some r ∧
        (x = l ∨ x = r) ∧ l ∈ nl ∧ r ∈ nl
  | s, [], A, hb, hnd => by simp
  | s, [i], A, hb, hnd => by
      intro x hxmem
      simp only [List.mem_singleton] at hxmem
      subst hxmem
      have hi : x < A.length := hb x (by simp)
      simp only [pairStep]
      refine ⟨A.length, x, x, ?_, le_rfl, ?_, ?_, ?_, Or.inl rfl, by simp, by simp⟩
      · rw [getNode_pairOne_self s A hi]
      · rw [pairOne_length]; omega
      · rw [getNode_pairOne_new s A hi hi]
      · rw [getNode_pairOne_new s A hi hi]
  | s, i :: j :: rest, A, hb, hnd => by
      have hi : i < A.length := hb i (by simp)
      have hj : j < A.length := hb j (by simp)
      have hbrest : ∀ y ∈ rest, y < A.length := fun y hy => hb y (by simp [hy])
      have hb1 : ∀ y ∈ rest, y < (pairOne s A i j).length := by
        intro y hy
        rw [pairOne_length]
        exact lt_trans (hbrest y hy) (by omega)
      simp only [List.nodup_cons, List.mem_cons, not_or] at hnd
      obtain ⟨⟨hij, hirest⟩, hjrest, hndrest⟩ := hnd
      have hAl_not : A.length ∉ rest := fun hmem => absurd (hbrest _ hmem) (by omega)
      have hlen2 : (pairStep s rest (pairOne s A i j)).1.length =
          A.length + 1 + (rest.length + 1) / 2 := by
        rw [pairStep_len, pairOne_length]
      have hnew : getNode (pairStep s rest (pairOne s A i j)).1 A.length =
          ({ Left := some i, Right := some j,
             Hash := s ((getNode A i).Hash ++ (getNode A j).Hash) } : Node α) := by
        rw [pairStep_untouched s rest (pairOne s A i j) A.length
          (by rw [pairOne_length]; omega) hAl_not]
        exact getNode_pairOne_new s A hi hj
      intro x hxmem
      simp only [pairStep]
      simp only [List.mem_cons] at hxmem
      rcases hxmem with rfl | rfl | hxrest
      · refine ⟨A.length, x, j, ?_, le_rfl, by omega, ?_, ?_, Or.inl rfl, by simp, by simp⟩
        · rw [pairStep_untouched s rest (pairOne s A x j) x
            (by rw [pairOne_length]; omega) hirest]
          rw [getNode_pairOne_left s A hi hij]
        · rw [hnew]
        · rw [hnew]
      · refine ⟨A.length, i, x, ?_, le_rfl, by omega, ?_, ?_, Or.inr rfl, by simp, by simp⟩
        · rw [pairStep_untouched s rest (pairOne s A i x) x
            (by rw [pairOne_length]; omega) hjrest]
          rw [getNode_pairOne_right s A hj hij]
        · rw [hnew]
        · rw [hnew]
      · obtain ⟨p, l, r, hP, hge, hlt, hL, hR, hor, hl, hr⟩ :=
          pairStep_members s rest (pairOne s A i j) hb1 hndrest x hxrest
        rw [pairOne_length] at hge
        exact ⟨p, l, r, hP, by omega, hlt, hL, hR, hor, by simp [hl], by simp [hr]⟩

theorem pairStep_fresh {α : Type} :
    ∀ (s : List Nat → List Nat) (nl : List Nat) (A : List (Node α)),
      (∀ y ∈ nl, y < A.length) →
      ∀ y, A.length ≤ y → y < (pairStep s nl A).1.length →
        (getNode (pairStep s nl A).1 y).Parent = none ∧
        (getNode (pairStep s nl A).1 y).leaf = false ∧
        (getNode (pairStep s nl A).1 y).dup = false ∧
        (getNode (pairStep s nl A).1 y).C = none ∧
        ∃ l r, (getNode (pairStep s nl A).1 y).Left = some l ∧
          (getNode (pairStep s nl A).1 y).Right = some r ∧ l ∈ nl ∧ r ∈ nl ∧
          (getNode (pairStep s nl A).1 y).Hash =
            s ((getNode (pairStep s nl A).1 l).Hash ++
               (getNode (pairStep s nl A).1 r).Hash)
  | s, [], A, hb => by
      intro y hy1 hy2
      simp only [pairStep] at hy2
      omega
  | s, [i], A, hb => by
      intro y hy1 hy2
      have hi : i < A.length := hb i (by simp)
      simp only [pairStep] at hy2 ⊢
      rw [pairOne_length] at hy2
      have hyA : y = A.length := by omega
      subst hyA
      rw [getNode_pairOne_new s A hi hi]
      refine ⟨rfl, rfl, rfl, rfl, i, i, rfl, rfl, by simp, by simp, ?_⟩
      rw [getNode_pairOne_self s A hi]
  | s, i :: j :: rest, A, hb => by
      intro y hy1 hy2
      have hi : i < A.length := hb i (by simp)
      have hj : j < A.length := hb j (by simp)
      have hbrest : ∀ z ∈ rest, z < A.length := fun z hz => hb z (by simp [hz])
      have hb1 : ∀ z ∈ rest, z < (pairOne s A i j).length := by
        intro z hz
        rw [pairOne_length]
        exact lt_trans (hbrest z hz) (by omega)
      simp only [pairStep] at hy2 ⊢
      by_cases hyA : y = A.length
      · subst hyA
        have hAl_not : A.length ∉ rest := fun hmem => absurd (hbrest _ hmem) (by omega)
        rw [pairStep_untouched s rest (pairOne s A i j) A.length
          (by rw [pairOne_length]; omega) hAl_not]
        rw [getNode_pairOne_new s A hi hj]
        refine ⟨rfl, rfl, rfl, rfl, i, j, rfl, rfl, by simp, by simp, ?_⟩
        have h1 : (getNode (pairStep s rest (pairOne s A i j)).1 i).Hash =
            (getNode A i).Hash := by
          have e2 := (eraseParent_fields (pairStep_fields s rest (pairOne s A i j) i
            (by rw [pairOne_length]; omega))).2.2.2.2.1
          rw [e2]
          by_cases hij : i = j
          · subst hij
            rw [getNode_pairOne_self s A hi]
          · rw [getNode_pairOne_left s A hi hij]
        have h2 : (getNode (pairStep s rest (pairOne s A i j)).1 j).Hash =
            (getNode A j).Hash := by
          have e2 := (eraseParent_fields (pairStep_fields s rest (pairOne s A i j) j
            (by rw [pairOne_length]; omega))).2.2.2.2.1
          rw [e2]
          by_cases hij : i = j
          · subst hij
            rw [getNode_pairOne_self s A hj]
          · rw [getNode_pairOne_right s A hj hij]
        rw [h1, h2]
      · obtain ⟨hp, hlf, hdp, hc, l, r, hL, hR, hl, hr, hh⟩ :=
          pairStep_fresh s rest (pairOne s A i j) hb1 y (by rw [pairOne_length]; omega) hy2
        exact ⟨hp, hlf, hdp, hc, l, r, hL, hR, by simp [hl], by simp [hr], hh⟩

theorem pairOne_erase {α : Type} (s : List Nat → List Nat) (A : List (Node α))
    (i j y : Nat) (hy : y < A.length) :
    eraseParent (getNode (pairOne s A i j) y) = eraseParent (getNode A y) := by
  by_cases hyi : y = i
  · subst hyi
    by_cases hij : y = j
    · subst hij
      rw [getNode_pairOne_self s A hy]
      exact eraseParent_update _ _
    · rw [getNode_pairOne_left s A hy hij]
      exact eraseParent_update _ _
  · by_cases hyj : y = j
    · subst hyj
      rw [getNode_pairOne_right s A hy (Ne.symm hyi)]
      exact eraseParent_update _ _
    · rw [getNode_pairOne_other s A hy hyi hyj]

theorem pairStep_hashes {α : Type} :
    ∀ (s : List Nat → List Nat) (nl : List Nat) (A : List (Node α)),
      (∀ y ∈ nl, y < A.length) →
      (pairStep s nl A).2.map (fun y => (getNode (pairStep s nl A).1 y).Hash) =
        combine s (nl.map (fun i => (getNode A i).Hash))
  | s, [], A, hb => by simp [pairStep, combine]
  | s, [i], A, hb => by
      have hi : i < A.length := hb i (by simp)
      simp only [pairStep, combine, List.map_cons, List.map_nil]
      rw [getNode_pairOne_new s A hi hi]
  | s, i :: j :: rest, A, hb => by
      have hi : i < A.length := hb i (by simp)
      have hj : j < A.length := hb j (by simp)
      have hbrest : ∀ y ∈ rest, y < A.length := fun y hy => hb y (by simp [hy])
      have hb1 : ∀ y ∈ rest, y < (pairOne s A i j).length := by
        intro y hy
        rw [pairOne_length]
        exact lt_trans (hbrest y hy) (by omega)
      have hAl_not : A.length ∉ rest := fun hmem => absurd (hbrest _ hmem) (by omega)
      simp only [pairStep, combine, List.map_cons]
      congr 1
      · rw [pairStep_untouched s rest (pairOne s A i j) A.length
          (by rw [pairOne_length]; omega) hAl_not]
        rw [getNode_pairOne_new s A hi hj]
      · rw [pairStep_hashes s rest (pairOne s A i j) hb1]
        congr 1
        apply List.map_congr_left
        intro y hy
        exact (eraseParent_fields (pairOne_erase s A i j y (hbrest y hy))).2.2.2.2.1

theorem pairStep_pos {α : Type} :
    ∀ (s : List Nat → List Nat) (nl : List Nat) (A : List (Node α)),
      (∀ y ∈ nl, y < A.length) → nl.Nodup →
      ∀ k, 2 * k + 1 < nl.length →
        (getNode (pairStep s nl A).1 (A.length + k)).Left = some (nl.getD (2 * k) 0) ∧
        (getNode (pairStep s nl A).1 (A.length + k)).Right = some (nl.getD (2 * k + 1) 0) ∧
        (getNode (pairStep s nl A).1 (nl.getD (2 * k) 0)).Parent = some (A.length + k) ∧
        (getNode (pairStep s nl A).1 (nl.getD (2 * k + 1) 0)).Parent = some (A.length + k)
  | s, [], A, hb, hnd, k, hk => by simp at hk
  | s, [i], A, hb, hnd, k, hk => by
      simp only [List.length_cons, List.length_nil] at hk
      omega
  | s, i :: j :: rest, A, hb, hnd, k, hk => by
      have hi : i < A.length := hb i (by simp)
      have hj : j < A.length := hb j (by simp)
      have hbrest : ∀ y ∈ rest, y < A.length := fun y hy => hb y (by simp [hy])
      have hb1 : ∀ y ∈ rest, y < (pairOne s A i j).length := by
        intro y hy
        rw [pairOne_length]
        exact lt_trans (hbrest y hy) (by omega)
      simp only [List.nodup_cons, List.mem_cons, not_or] at hnd
      obtain ⟨⟨hij, hirest⟩, hjrest, hndrest⟩ := hnd
      have hAl_not : A.length ∉ rest := fun hmem => absurd (hbrest _ hmem) (by omega)
      simp only [pairStep]
      cases k with
      | zero =>
          simp only [Nat.mul_zero, Nat.add_zero, List.getD_cons_zero, List.getD_cons_succ]
          refine ⟨?_, ?_, ?_, ?_⟩
          · rw [pairStep_untouched s rest (pairOne s A i j) A.length
              (by rw [pairOne_length]; omega) hAl_not, getNode_pairOne_new s A hi hj]
          · rw [pairStep_untouched s rest (pairOne s A i j) A.length
              (by rw [pairOne_length]; omega) hAl_not, getNode_pairOne_new s A hi hj]
          · rw [pairStep_untouched s rest (pairOne s A i j) i
              (by rw [pairOne_length]; omega) hirest, getNode_pairOne_left s A hi hij]
          · rw [pairStep_untouched s rest (pairOne s A i j) j
              (by rw [pairOne_length]; omega) hjrest, getNode_pairOne_right s A hj hij]
      | succ k2 =>
          have hk2 : 2 * k2 + 1 < rest.length := by
            simp only [List.length_cons] at hk
            omega
          have ih := pairStep_pos s rest (pairOne s A i j) hb1 hndrest k2 hk2
          rw [pairOne_length] at ih
          rw [show A.length + 1 + k2 = A.length + (k2 + 1) by omega] at ih
          have hg1 : (i :: j :: rest).getD (2 * (k2 + 1)) 0 = rest.getD (2 * k2) 0 := by
            rw [show 2 * (k2 + 1) = 2 * k2 + 1 + 1 by omega, List.getD_cons_succ,
              List.getD_cons_succ]
          have hg2 : (i :: j :: rest).getD (2 * (k2 + 1) + 1) 0 =
              rest.getD (2 * k2 + 1) 0 := by
            rw [show 2 * (k2 + 1) + 1 = 2 * k2 + 1 + 1 + 1 by omega, List.getD_cons_succ,
              List.getD_cons_succ]
          rw [hg1, hg2]
          exact ih

theorem pairStep_oddlast {α : Type} :
    ∀ (s : List Nat → List Nat) (nl : List Nat) (A : List (Node α)),
      (∀ y ∈ nl, y < A.length) → nl.length % 2 = 1 →
      ∃ y, A.length ≤ y ∧ y < (pairStep s nl A).1.length ∧
        (getNode (pairStep s nl A).1 y).Left = some (nl.getLast?.getD 0) ∧
        (getNode (pairStep s nl A).1 y).Right = some (nl.getLast?.getD 0)
  | s, [], A, hb, hodd => by simp at hodd
  | s, [i], A, hb, hodd => by
      have hi : i < A.length := hb i (by simp)
      simp only [pairStep, List.getLast?_singleton, Option.getD_some]
      exact ⟨A.length, le_rfl, by rw [pairOne_length]; omega,
        by rw [getNode_pairOne_new s A hi hi],
        by rw [getNode_pairOne_new s A hi hi]⟩
  | s, i :: j :: rest, A, hb, hodd => by
      cases rest with
      | nil => simp at hodd
      | cons r0 rest2 =>
          have hbrest : ∀ y ∈ r0 :: rest2, y < A.length := fun y hy => hb y (by simp [hy])
          have hb1 : ∀ y ∈ r0 :: rest2, y < (pairOne s A i j).length := by
            intro y hy
            rw [pairOne_length]
            exact lt_trans (hbrest y hy) (by omega)
          have hro : (r0 :: rest2).length % 2 = 1 := by
            simp only [List.length_cons] at hodd ⊢
            omega
          obtain ⟨y, h1, h2, h3, h4⟩ :=
            pairStep_oddlast s (r0 :: rest2) (pairOne s A i j) hb1 hro
          rw [pairOne_length] at h1
          simp only [pairStep, List.getLast?_cons_cons]
          exact ⟨y, by omega, h2, h3, h4⟩

theorem pairStep_levelInv {α : Type} (s : List Nat → List Nat)
    (nl : List Nat) (A : List (Node α)) (hinv : LevelInv s A nl) :
    LevelInv s (pairStep s nl A).1 (pairStep s nl A).2 := by
  obtain ⟨hnd, hb, hcov, hhash⟩ := hinv
  have hlen : (pairStep s nl A).1.length = A.length + (nl.length + 1) / 2 :=
    pairStep_len s nl A
  have hids : (pairStep s nl A).2 = List.range' A.length ((nl.length + 1) / 2) :=
    pairStep_ids s nl A
  constructor
  · rw [hids]
    exact List.nodup_range' _ _
  · intro y hy
    rw [hids, List.mem_range'] at hy
    obtain ⟨i2, hi2, rfl⟩ := hy
    omega
  · intro x hx hxnot
    by_cases hxA : x < A.length
    · by_cases hxnl : x ∈ nl
      · obtain ⟨p, l, r, hP, hge, hlt, hL, hR, hor, hl, hr⟩ :=
          pairStep_members s nl A hb hnd x hxnl
        exact ⟨p, l, r, hP, by omega, hlt, hL, hR, hor⟩
      · obtain ⟨p, l, r, hP, hxp, hpA, hL, hR, hor⟩ := hcov x hxA hxnl
        have hxkeep : getNode (pairStep s nl A).1 x = getNode A x :=
          pairStep_untouched s nl A x hxA hxnl
        have hpf := eraseParent_fields (pairStep_fields s nl A p hpA)
        refine ⟨p, l, r, ?_, hxp, by omega, ?_, ?_, hor⟩
        · rw [hxkeep]
          exact hP
        · rw [hpf.1]
          exact hL
        · rw [hpf.2.1]
          exact hR
    · exfalso
      apply hxnot
      rw [hids, List.mem_range']
      exact ⟨x - A.length, by omega, by omega⟩
  · intro p hp l r hL hR
    by_cases hpA : p < A.length
    · have hpf := eraseParent_fields (pairStep_fields s nl A p hpA)
      rw [hpf.1] at hL
      rw [hpf.2.1] at hR
      obtain ⟨hlp, hrp, hhq⟩ := hhash p hpA l r hL hR
      have hlf := eraseParent_fields (pairStep_fields s nl A l (by omega))
      have hrf := eraseParent_fields (pairStep_fields s nl A r (by omega))
      refine ⟨hlp, hrp, ?_⟩
      rw [hpf.2.2.2.2.1, hlf.2.2.2.2.1, hrf.2.2.2.2.1]
      exact hhq
    · obtain ⟨hP, hlf2, hdp, hc, l0, r0, hL0, hR0, hl0, hr0, hh0⟩ :=
        pairStep_fresh s nl A hb p (by omega) hp
      have hle : l0 = l := by
        rw [hL] at hL0
        exact (Option.some.inj hL0).symm
      have hre : r0 = r := by
        rw [hR] at hR0
        exact (Option.some.inj hR0).symm
      subst hle
      subst hre
      exact ⟨by have := hb l0 hl0; omega, by have := hb r0 hr0; omega, hh0⟩

theorem buildIntermediateGo_congr {α : Type} (s : List Nat → List Nat) :
    ∀ (n f1 f2 : Nat) (nl : List Nat) (A : List (Node α)), nl.length ≤ n →
      nl.length ≤ f1 → nl.length ≤ f2 →
      buildIntermediateGo s f1 nl A = buildIntermediateGo s f2 nl A := by
  intro n
  induction n with
  | zero =>
      intro f1 f2 nl A hn h1 h2
      have hnl : nl.length = 0 := by omega
      cases f1 with
      | zero =>
          cases f2 with
          | zero => rfl
          | succ g2 =>
              simp only [buildIntermediateGo]
              rw [if_pos (by omega)]
      | succ g1 =>
          cases f2 with
          | zero =>
              simp only [buildIntermediateGo]
              rw [if_pos (by omega)]
          | succ g2 =>
              simp only [buildIntermediateGo]
              rw [if_pos (by omega), if_pos (by omega)]
  | succ n2 ih =>
      intro f1 f2 nl A hn h1 h2
      by_cases hlt : nl.length < 2
      · cases f1 with
        | zero =>
            cases f2 with
            | zero => rfl
            | succ g2 =>
                have hnl : nl.length = 0 := by omega
                simp only [buildIntermediateGo]
                rw [if_pos hlt]
        | succ g1 =>
            cases f2 with
            | zero =>
                have hnl : nl.length = 0 := by omega
                simp only [buildIntermediateGo]
                rw [if_pos hlt]
            | succ g2 =>
                simp only [buildIntermediateGo]
                rw [if_pos hlt, if_pos hlt]
      · cases f1 with
        | zero => omega
        | succ g1 =>
            cases f2 with
            | zero => omega
            | succ g2 =>
                simp only [buildIntermediateGo]
                rw [if_neg hlt, if_neg hlt]
                by_cases h2e : nl.length = 2
                · rw [if_pos h2e, if_pos h2e]
                · rw [if_neg h2e, if_neg h2e]
                  have hlen1 : (pairStep s nl A).2.length = (nl.length + 1) / 2 := by
                    rw [pairStep_ids, List.length_range']
                  exact ih g1 g2 (pairStep s nl A).2 (pairStep s nl A).1
                    (by omega) (by omega) (by omega)

theorem buildIntermediate_eq {α : Type} (s : List Nat → List Nat)
    (nl : List Nat) (A : List (Node α)) :
    buildIntermediate s nl A =
      if nl.length < 2 then (A, 0)
      else if nl.length = 2 then ((pairStep s nl A).1, (pairStep s nl A).2.headD 0)
      else buildIntermediate s (pairStep s nl A).2 (pairStep s nl A).1 := by
  by_cases hlt : nl.length < 2
  · rw [if_pos hlt]
    unfold buildIntermediate
    cases hnl : nl with
    | nil => rfl
    | cons a l =>
        simp only [List.length_cons, buildIntermediateGo]
        rw [if_pos (by rw [hnl] at hlt; simpa using hlt)]
  · rw [if_neg hlt]
    unfold buildIntermediate
    have hpos : ∃ g, nl.length = g + 1 := ⟨nl.length - 1, by omega⟩
    obtain ⟨g, hg⟩ := hpos
    conv_lhs => rw [hg]
    simp only [buildIntermediateGo]
    rw [if_neg hlt]
    by_cases h2e : nl.length = 2
    · rw [if_pos h2e, if_pos h2e]
    · rw [if_neg h2e, if_neg h2e]
      have hlen1 : (pairStep s nl A).2.length = (nl.length + 1) / 2 := by
        rw [pairStep_ids, List.length_range']
      exact buildIntermediateGo_congr s (g + 1) g (pairStep s nl A).2.length
        (pairStep s nl A).2 (pairStep s nl A).1 (by omega) (by omega) (by omega)

theorem pairStep_ids_two {α : Type} (s : List Nat → List Nat) (nl : List Nat)
    (A : List (Node α)) (h2 : nl.length = 2) : (pairStep s nl A).2 = [A.length] := by
  rw [pairStep_ids, h2]
  rfl

theorem buildIntermediate_invT {α : Type} (s : List Nat → List Nat) :
    ∀ (n : Nat) (nl : List Nat) (A : List (Node α)), nl.length ≤ n →
      2 ≤ nl.length → LevelInv s A nl →
      InvT s (buildIntermediate s nl A).1 (buildIntermediate s nl A).2 := by
  intro n
  induction n with
  | zero =>
      intro nl A h1 h2 hinv
      omega
  | succ n2 ih =>
      intro nl A hle h2 hinv
      rw [buildIntermediate_eq, if_neg (by omega)]
      by_cases h2e : nl.length = 2
      · rw [if_pos h2e]
        obtain ⟨hnd', hb', hcov', hhash'⟩ := pairStep_levelInv s nl A hinv
        have hids1 : (pairStep s nl A).2 = [A.length] := pairStep_ids_two s nl A h2e
        simp only [hids1, List.headD_cons]
        constructor
        · rw [pairStep_len]
          omega
        · exact (pairStep_fresh s nl A hinv.bounded A.length (le_refl _)
            (by rw [pairStep_len]; omega)).1
        · intro x hx hxr
          apply hcov' x hx
          rw [hids1]
          simp [hxr]
        · exact hhash'
      · rw [if_neg h2e]
        have hlen1 : (pairStep s nl A).2.length = (nl.length + 1) / 2 := by
          rw [pairStep_ids, List.length_range']
        exact ih (pairStep s nl A).2 (pairStep s nl A).1 (by omega) (by omega)
          (pairStep_levelInv s nl A hinv)

theorem buildIntermediate_erase {α : Type} (s : List Nat → List Nat) :
    ∀ (n : Nat) (nl : List Nat) (A : List (Node α)), nl.length ≤ n →
      ∀ x, x < A.length →
      eraseParent (getNode (buildIntermediate s nl A).1 x) =
        eraseParent (getNode A x) := by
  intro n
  induction n with
  | zero =>
      intro nl A hle x hx
      rw [buildIntermediate_eq, if_pos (by omega)]
  | succ n2 ih =>
      intro nl A hle x hx
      rw [buildIntermediate_eq]
      by_cases hlt : nl.length < 2
      · rw [if_pos hlt]
      · rw [if_neg hlt]
        by_cases h2 : nl.length = 2
        · rw [if_pos h2]
          exact pairStep_fields s nl A x hx
        · rw [if_neg h2]
          have hlen1 : (pairStep s nl A).2.length = (nl.length + 1) / 2 := by
            rw [pairStep_ids, List.length_range']
          rw [ih (pairStep s nl A).2 (pairStep s nl A).1 (by omega) x
            (by rw [pairStep_len]; omega)]
          exact pairStep_fields s nl A x hx

theorem buildIntermediate_len {α : Type} (s : List Nat → List Nat) :
    ∀ (n : Nat) (nl : List Nat) (A : List (Node α)), nl.length ≤ n →
      A.length ≤ (buildIntermediate s nl A).1.length := by
  intro n
  induction n with
  | zero =>
      intro nl A hle
      rw [buildIntermediate_eq, if_pos (by omega)]
  | succ n2 ih =>
      intro nl A hle
      rw [buildIntermediate_eq]
      by_cases hlt : nl.length < 2
      · rw [if_pos hlt]
      · rw [if_neg hlt]
        by_cases h2 : nl.length = 2
        · rw [if_pos h2]
          rw [pairStep_len]
          omega
        · rw [if_neg h2]
          have hlen1 : (pairStep s nl A).2.length = (nl.length + 1) / 2 := by
            rw [pairStep_ids, List.length_range']
          have := ih (pairStep s nl A).2 (pairStep s nl A).1 (by omega)
          rw [pairStep_len] at this
          omega

theorem combine_length (s : List Nat → List Nat) :
    ∀ l : List (List Nat), (combine s l).length = (l.length + 1) / 2
  | [] => by simp [combine]
  | [h] => by simp [combine]
  | h1 :: h2 :: rest => by
      simp [combine, combine_length s rest]
      omega

theorem reduceLevels_step (s : List Nat → List Nat) (l : List (List Nat))
    (h2 : 2 ≤ l.length) : reduceLevels s l = reduceLevels s (combine s l) := by
  cases l with
  | nil => simp at h2
  | cons a t =>
      cases t with
      | nil => simp at h2
      | cons b t2 => rw [reduceLevels]

theorem reduceLevels_strategy (s : List Nat → List Nat) :
    ∀ (n : Nat) (l : List (List Nat)), l.length ≤ n → 2 ≤ l.length →
      ∃ w, reduceLevels s l = s w := by
  intro n
  induction n with
  | zero =>
      intro l h1 h2
      omega
  | succ n2 ih =>
      intro l h1 h2
      cases l with
      | nil => simp at h2
      | cons a t =>
          cases t with
          | nil => simp at h2
          | cons b t2 =>
              rw [reduceLevels]
              cases t2 with
              | nil => exact ⟨a ++ b, by rw [combine, combine, reduceLevels]⟩
              | cons c t3 =>
                  apply ih
                  · rw [combine_length]
                    simp only [List.length_cons] at h1 ⊢
                    omega
                  · rw [combine_length]
                    simp only [List.length_cons]
                    omega

theorem buildIntermediate_rootHash {α : Type} (s : List Nat → List Nat) :
    ∀ (n : Nat) (nl : List Nat) (A : List (Node α)), nl.length ≤ n →
      2 ≤ nl.length → (∀ y ∈ nl, y < A.length) →
      (getNode (buildIntermediate s nl A).1 (buildIntermediate s nl A).2).Hash =
        reduceLevels s (nl.map (fun i => (getNode A i).Hash)) := by
  intro n
  induction n with
  | zero =>
      intro nl A h1 h2 hb
      omega
  | succ n2 ih =>
      intro nl A hle h2 hb
      rw [buildIntermediate_eq, if_neg (by omega)]
      have hhashes := pairStep_hashes s nl A hb
      by_cases h2e : nl.length = 2
      · rw [if_pos h2e]
        have hids1 : (pairStep s nl A).2 = [A.length] := pairStep_ids_two s nl A h2e
        rw [hids1] at hhashes
        simp only [List.map_cons, List.map_nil] at hhashes
        rw [hids1]
        simp only [List.headD_cons]
        rw [reduceLevels_step s _ (by simp [h2e]), ← hhashes, reduceLevels]
      · rw [if_neg h2e]
        have hlen1 : (pairStep s nl A).2.length = (nl.length + 1) / 2 := by
          rw [pairStep_ids, List.length_range']
        have hbnew : ∀ y ∈ (pairStep s nl A).2, y < (pairStep s nl A).1.length := by
          intro y hy
          rw [pairStep_ids, List.mem_range'] at hy
          obtain ⟨i2, hi2, rfl⟩ := hy
          rw [pairStep_len]
          omega
        rw [ih (pairStep s nl A).2 (pairStep s nl A).1 (by omega) (by omega) hbnew]
        rw [hhashes, ← reduceLevels_step s _ (by simp; omega)]

theorem buildLeafs_spec {α ε : Type} (calcHash : α → Except ε (List Nat)) :
    ∀ (cs : List α) (L : List (Node α)), buildLeafs calcHash cs = .ok L →
      L.length = cs.length ∧
      ∀ k, k < cs.length → ∃ c hsh, cs[k]? = some c ∧ calcHash c = .ok hsh ∧
        getNode L k = { Hash := hsh, C := some c, leaf := true }
  | [], L, h => by
      simp only [buildLeafs, Except.ok.injEq] at h
      subst h
      exact ⟨rfl, by intro k hk; simp at hk⟩
  | c :: cs, L, h => by
      cases hc : calcHash c with
      | error e => simp [buildLeafs, hc] at h
      | ok hsh =>
          cases hrest : buildLeafs calcHash cs with
          | error e => simp [buildLeafs, hc, hrest] at h
          | ok rest =>
              simp only [buildLeafs, hc, hrest, Except.ok.injEq] at h
              subst h
              obtain ⟨hlen, hspec⟩ := buildLeafs_spec calcHash cs rest hrest
              refine ⟨by simp [hlen], ?_⟩
              intro k hk
              cases k with
              | zero => exact ⟨c, hsh, by simp, hc, by simp [getNode]⟩
              | succ k2 =>
                  obtain ⟨c2, h2, hcs, hcalc, hnode⟩ := hspec k2 (by simp at hk; omega)
                  refine ⟨c2, h2, by simpa using hcs, hcalc, ?_⟩
                  simpa [getNode] using hnode

theorem buildLeafs_ok {α ε : Type} (calcHash : α → Except ε (List Nat)) :
    ∀ cs : List α, (∀ c ∈ cs, ∃ h, calcHash c = .ok h) →
      ∃ L, buildLeafs calcHash cs = .ok L
  | [], _ => ⟨[], rfl⟩
  | c :: cs, hok => by
      obtain ⟨h, hc⟩ := hok c (by simp)
      obtain ⟨L, hL⟩ := buildLeafs_ok calcHash cs (fun c2 hc2 => hok c2 (by simp [hc2]))
      exact ⟨{ Hash := h, C := some c, leaf := true } :: L,
        by simp only [buildLeafs, hc, hL]⟩

theorem buildLeafs_error {α ε : Type} (calcHash : α → Except ε (List Nat)) :
    ∀ (cs : List α) (e : ε), buildLeafs calcHash cs = .error e →
      ∃ c ∈ cs, calcHash c = .error e
  | [], e, h => by simp [buildLeafs] at h
  | c :: cs, e, h => by
      cases hc : calcHash c with
      | error e2 =>
          simp only [buildLeafs, hc, Except.error.injEq] at h
          exact ⟨c, by simp, by rw [hc, h]⟩
      | ok hsh =>
          cases hrest : buildLeafs calcHash cs with
          | error e2 =>
              simp only [buildLeafs, hc, hrest, Except.error.injEq] at h
              obtain ⟨c2, hmem, hcalc⟩ := buildLeafs_error calcHash cs e2 hrest
              exact ⟨c2, by simp [hmem], by rw [hcalc, h]⟩
          | ok rest => simp [buildLeafs, hc, hrest] at h

theorem buildLeafs_firstError {α ε : Type} (calcHash : α → Except ε (List Nat)) :
    ∀ (pre : List α) (c : α) (post : List α) (e : ε),
      (∀ c2 ∈ pre, ∃ h, calcHash c2 = .ok h) → calcHash c = .error e →
      buildLeafs calcHash (pre ++ c :: post) = .error e
  | [], c, post, e, hpre, hc => by simp [buildLeafs, hc]
  | c0 :: pre, c, post, e, hpre, hc => by
      obtain ⟨h0, hc0⟩ := hpre c0 (by simp)
      have := buildLeafs_firstError calcHash pre c post e
        (fun c2 hc2 => hpre c2 (by simp [hc2])) hc
      simp only [List.cons_append, buildLeafs, hc0, List.append_eq, this]

theorem padLeafs_length {α : Type} (L : List (Node α)) :
    (padLeafs L).length = if L.length % 2 = 1 then L.length + 1 else L.length := by
  unfold padLeafs
  split
  · simp_all
  · simp_all

theorem padLeafs_even {α : Type} (L : List (Node α)) : (padLeafs L).length % 2 = 0 := by
  rw [padLeafs_length]
  split <;> omega

theorem padLeafs_getNode_lt {α : Type} (L : List (Node α)) {k : Nat}
    (hk : k < L.length) : getNode (padLeafs L) k = getNode L k := by
  unfold padLeafs
  split
  · exact getNode_append_lt _ _ hk
  · rfl

theorem padLeafs_getNode_dup {α : Type} (L : List (Node α)) (h : L.length % 2 = 1) :
    getNode (padLeafs L) L.length =
      { Hash := (getNode L (L.length - 1)).Hash, C := (getNode L (L.length - 1)).C,
        leaf := true, dup := true } := by
  unfold padLeafs
  rw [if_pos h]
  exact getNode_append_self _ _

theorem initial_levelInv {α : Type} (s : List Nat → List Nat) (A : List (Node α))
    (hleaf : ∀ k, k < A.length → (getNode A k).Left = none) :
    LevelInv s A (List.range A.length) := by
  constructor
  · exact List.nodup_range _
  · intro i hi
    rwa [List.mem_range] at hi
  · intro x hx hxn
    exact absurd (List.mem_range.mpr hx) hxn
  · intro p hp l r hL hR
    rw [hleaf p hp] at hL
    exact absurd hL (by simp)

theorem buildWithContent_parts {α ε : Type} (s : List Nat → List Nat)
    (calcHash : α → Except ε (List Nat)) (cs : List α) (root : Nat)
    (leafs : List Nat) (A : List (Node α))
    (hb : buildWithContent s calcHash cs = .ok (root, leafs, A)) :
    ∃ L, buildLeafs calcHash cs = .ok L ∧
      leafs = List.range (padLeafs L).length ∧
      A = (buildIntermediate s (List.range (padLeafs L).length) (padLeafs L)).1 ∧
      root = (buildIntermediate s (List.range (padLeafs L).length) (padLeafs L)).2 ∧
      cs ≠ [] := by
  unfold buildWithContent at hb
  by_cases hcs : cs.length = 0
  · rw [if_pos hcs] at hb
    exact absurd hb (by simp)
  · rw [if_neg hcs] at hb
    cases hL : buildLeafs calcHash cs with
    | error e => rw [hL] at hb; exact absurd hb (by simp)
    | ok L =>
        rw [hL] at hb
        simp only [Except.ok.injEq, Prod.mk.injEq] at hb
        obtain ⟨h1, h2, h3⟩ := hb
        exact ⟨L, rfl, h2.symm, h3.symm, h1.symm, by intro h; subst h; simp at hcs⟩

theorem newTreeWith_parts {α ε : Type} (s : List Nat → List Nat)
    (calcHash : α → Except ε (List Nat)) (cs : List α) (t : MerkleTree α)
    (hb : newTreeWith s calcHash cs = .ok t) :
    ∃ L, buildLeafs calcHash cs = .ok L ∧
      t.Leafs = List.range (padLeafs L).length ∧
      t.arena = (buildIntermediate s (List.range (padLeafs L).length) (padLeafs L)).1 ∧
      t.Root = (buildIntermediate s (List.range (padLeafs L).length) (padLeafs L)).2 ∧
      t.merkleRoot = (getNode t.arena t.Root).Hash ∧
      cs ≠ [] := by
  unfold newTreeWith at hb
  cases hbc : buildWithContent s calcHash cs with
  | error e => rw [hbc] at hb; exact absurd hb (by simp)
  | ok v =>
      obtain ⟨root, leafs, A⟩ := v
      rw [hbc] at hb
      simp only [Except.ok.injEq] at hb
      subst hb
      obtain ⟨L, h1, h2, h3, h4, h5⟩ := buildWithContent_parts s calcHash cs root leafs A hbc
      exact ⟨L, h1, h2, h3, h4, rfl, h5⟩

theorem padLeafs_leaf_none {α ε : Type} (calcHash : α → Except ε (List Nat))
    (cs : List α) (L : List (Node α)) (hL : buildLeafs calcHash cs = .ok L) :
    ∀ k, k < (padLeafs L).length →
      (getNode (padLeafs L) k).Left = none ∧ (getNode (padLeafs L) k).Right = none ∧
      (getNode (padLeafs L) k).leaf = true := by
  intro k hk
  obtain ⟨hlen, hspec⟩ := buildLeafs_spec calcHash cs L hL
  rw [padLeafs_length] at hk
  by_cases hkL : k < L.length
  · rw [padLeafs_getNode_lt L hkL]
    obtain ⟨c, hsh, _, _, hnode⟩ := hspec k (by omega)
    rw [hnode]
    exact ⟨rfl, rfl, rfl⟩
  · by_cases hodd : L.length % 2 = 1
    · rw [if_pos hodd] at hk
      have hkeq : k = L.length := by omega
      subst hkeq
      rw [padLeafs_getNode_dup L hodd]
      exact ⟨rfl, rfl, rfl⟩
    · rw [if_neg hodd] at hk
      omega

theorem newTreeWith_invT {α ε : Type} (s : List Nat → List Nat)
    (calcHash : α → Except ε (List Nat)) (cs : List α) (t : MerkleTree α)
    (hb : newTreeWith s calcHash cs = .ok t) : InvT s t.arena t.Root := by
  obtain ⟨L, hL, h2, h3, h4, h5, h6⟩ := newTreeWith_parts s calcHash cs t hb
  have hlen1 : 1 ≤ L.length := by
    obtain ⟨hlen, _⟩ := buildLeafs_spec calcHash cs L hL
    cases cs with
    | nil => exact absurd rfl h6
    | cons a l => simp [hlen]
  have hpad2 : 2 ≤ (padLeafs L).length := by
    rw [padLeafs_length]
    split <;> omega
  have hinv := initial_levelInv s (padLeafs L)
    (fun k hk => (padLeafs_leaf_none calcHash cs L hL k hk).1)
  have hmain := buildIntermediate_invT s (List.range (padLeafs L).length).length
    (List.range (padLeafs L).length) (padLeafs L) le_rfl (by simpa using hpad2) hinv
  rw [h3, h4]
  exact hmain

theorem buildIntermediate_untouched {α : Type} (s : List Nat → List Nat) :
    ∀ (n : Nat) (nl : List Nat) (A : List (Node α)), nl.length ≤ n →
      (∀ y ∈ nl, y < A.length) →
      ∀ x, x < A.length → x ∉ nl →
      getNode (buildIntermediate s nl A).1 x = getNode A x := by
  intro n
  induction n with
  | zero =>
      intro nl A hle hbd x hx hxn
      rw [buildIntermediate_eq, if_pos (by omega)]
  | succ n2 ih =>
      intro nl A hle hbd x hx hxn
      rw [buildIntermediate_eq]
      by_cases hlt : nl.length < 2
      · rw [if_pos hlt]
      · rw [if_neg hlt]
        by_cases h2 : nl.length = 2
        · rw [if_pos h2]
          exact pairStep_untouched s nl A x hx hxn
        · rw [if_neg h2]
          have hlen1 : (pairStep s nl A).2.length = (nl.length + 1) / 2 := by
            rw [pairStep_ids, List.length_range']
          have hbd2 : ∀ y ∈ (pairStep s nl A).2, y < (pairStep s nl A).1.length := by
            intro y hy
            rw [pairStep_ids, List.mem_range'] at hy
            obtain ⟨i2, hi2, rfl⟩ := hy
            rw [pairStep_len]
            omega
          have hxn2 : x ∉ (pairStep s nl A).2 := by
            rw [pairStep_ids, List.mem_range']
            rintro ⟨i2, hi2, rfl⟩
            omega
          rw [ih (pairStep s nl A).2 (pairStep s nl A).1 (by omega) hbd2 x
            (by rw [pairStep_len]; omega) hxn2]
          exact pairStep_untouched s nl A x hx hxn

theorem newTreeWith_leafFacts {α ε : Type} (s : List Nat → List Nat)
    (calcHash : α → Except ε (List Nat)) (cs : List α) (t : MerkleTree α)
    (hb : newTreeWith s calcHash cs = .ok t) :
    t.Leafs = List.range (if cs.length % 2 = 1 then cs.length + 1 else cs.length) ∧
    t.Leafs.length ≤ t.arena.length ∧
    (∀ k, k < cs.length → ∃ c hsh, cs[k]? = some c ∧ calcHash c = .ok hsh ∧
      (getNode t.arena k).Hash = hsh ∧ (getNode t.arena k).C = some c ∧
      (getNode t.arena k).leaf = true ∧ (getNode t.arena k).dup = false) ∧
    (cs.length % 2 = 1 →
      (getNode t.arena cs.length).Hash = (getNode t.arena (cs.length - 1)).Hash ∧
      (getNode t.arena cs.length).C = (getNode t.arena (cs.length - 1)).C ∧
      (getNode t.arena cs.length).leaf = true ∧
      (getNode t.arena cs.length).dup = true) := by
  obtain ⟨L, hL, h2, h3, h4, h5, h6⟩ := newTreeWith_parts s calcHash cs t hb
  obtain ⟨hlen, hspec⟩ := buildLeafs_spec calcHash cs L hL
  have hlen1 : 1 ≤ L.length := by
    cases cs with
    | nil => exact absurd rfl h6
    | cons a l => simp [hlen]
  have hplen : (padLeafs L).length =
      if cs.length % 2 = 1 then cs.length + 1 else cs.length := by
    rw [padLeafs_length, hlen]
  have herase : ∀ k, k < (padLeafs L).length →
      eraseParent (getNode t.arena k) = eraseParent (getNode (padLeafs L) k) := by
    intro k hk
    rw [h3]
    exact buildIntermediate_erase s (List.range (padLeafs L).length).length
      (List.range (padLeafs L).length) (padLeafs L) le_rfl k hk
  refine ⟨by rw [h2, hplen], ?_, ?_, ?_⟩
  · rw [h2, h3]
    simp only [List.length_range]
    exact buildIntermediate_len s (List.range (padLeafs L).length).length
      (List.range (padLeafs L).length) (padLeafs L) le_rfl
  · intro k hk
    obtain ⟨c, hsh, hc1, hc2, hnode⟩ := hspec k hk
    have hkpad : k < (padLeafs L).length := by
      rw [padLeafs_length]
      split <;> omega
    have hef := eraseParent_fields (herase k hkpad)
    rw [padLeafs_getNode_lt L (by omega), hnode] at hef
    exact ⟨c, hsh, hc1, hc2, hef.2.2.2.2.1, hef.2.2.2.2.2, hef.2.2.1, hef.2.2.2.1⟩
  · intro hodd
    have hoddL : L.length % 2 = 1 := by omega
    have hnpad : cs.length < (padLeafs L).length := by
      rw [padLeafs_length]
      split <;> omega
    have hn1pad : cs.length - 1 < (padLeafs L).length := by omega
    have hef := eraseParent_fields (herase cs.length hnpad)
    have hef2 := eraseParent_fields (herase (cs.length - 1) hn1pad)
    have hdup := padLeafs_getNode_dup L hoddL
    rw [hlen] at hdup
    rw [hdup] at hef
    rw [padLeafs_getNode_lt L (by omega)] at hef2
    refine ⟨?_, ?_, hef.2.2.1, hef.2.2.2.1⟩
    · rw [hef.2.2.2.2.1, hef2.2.2.2.2.1]
    · rw [hef.2.2.2.2.2, hef2.2.2.2.2.2]

theorem newTreeWith_rootHash {α ε : Type} (s : List Nat → List Nat)
    (calcHash : α → Except ε (List Nat)) (cs : List α) (t : MerkleTree α)
    (hb : newTreeWith s calcHash cs = .ok t) :
    t.merkleRoot = reduceLevels s (t.Leafs.map (fun k => (getNode t.arena k).Hash)) ∧
    ∃ w, t.merkleRoot = s w := by
  obtain ⟨L, hL, h2, h3, h4, h5, h6⟩ := newTreeWith_parts s calcHash cs t hb
  obtain ⟨hlen, hspec⟩ := buildLeafs_spec calcHash cs L hL
  have hlen1 : 1 ≤ L.length := by
    cases cs with
    | nil => exact absurd rfl h6
    | cons a l => simp [hlen]
  have hpad2 : 2 ≤ (padLeafs L).length := by
    rw [padLeafs_length]
    split <;> omega
  have hbd : ∀ y ∈ List.range (padLeafs L).length, y < (padLeafs L).length := by
    intro y hy
    rwa [List.mem_range] at hy
  have hroot := buildIntermediate_rootHash s (List.range (padLeafs L).length).length
    (List.range (padLeafs L).length) (padLeafs L) le_rfl (by simpa using hpad2) hbd
  have hmapeq : (List.range (padLeafs L).length).map
        (fun i => (getNode (padLeafs L) i).Hash) =
      (List.range (padLeafs L).length).map (fun i => (getNode t.arena i).Hash) := by
    apply List.map_congr_left
    intro y hy
    rw [List.mem_range] at hy
    have he : eraseParent (getNode t.arena y) = eraseParent (getNode (padLeafs L) y) := by
      rw [h3]
      exact buildIntermediate_erase s (List.range (padLeafs L).length).length
        (List.range (padLeafs L).length) (padLeafs L) le_rfl y hy
    exact ((eraseParent_fields he).2.2.2.2.1).symm
  constructor
  · rw [h5, h2, ← hmapeq, h3, h4]
    exact hroot
  · rw [h5, h3, h4]
    obtain ⟨w, hw⟩ := reduceLevels_strategy s
      ((List.range (padLeafs L).length).map (fun i => (getNode (padLeafs L) i).Hash)).length
      ((List.range (padLeafs L).length).map (fun i => (getNode (padLeafs L) i).Hash))
      le_rfl (by simpa using hpad2)
    exact ⟨w, by rw [hroot, hw]⟩

theorem walkUp_fold {α : Type} (s : List Nat → List Nat) (A : List (Node α))
    (root : Nat) (hinv : InvT s A root) :
    ∀ (fuel x : Nat), x < A.length → A.length ≤ x + fuel →
      foldPath s (getNode A x).Hash
        (walkUp A fuel x (getNode A x).Parent).1
        (walkUp A fuel x (getNode A x).Parent).2 = (getNode A root).Hash := by
  intro fuel
  induction fuel with
  | zero =>
      intro x hx hle
      omega
  | succ f ih =>
      intro x hx hle
      cases hp : (getNode A x).Parent with
      | none =>
          have hxr : x = root := by
            by_contra hne
            obtain ⟨p, l, r, hP, _, _, _, _, _⟩ := hinv.covered x hx hne
            rw [hp] at hP
            exact absurd hP (by simp)
          subst hxr
          simp [walkUp, foldPath]
      | some p =>
          have hxr : x ≠ root := by
            intro h
            subst h
            rw [hinv.rootTop] at hp
            simp at hp
          obtain ⟨p2, l, r, hP, hxp, hpA, hL, hR, hor⟩ := hinv.covered x hx hxr
          rw [hp] at hP
          have hpe : p2 = p := Option.some.inj hP.symm
          subst hpe
          obtain ⟨hlp, hrp, hhash⟩ := hinv.hashed p2 hpA l r hL hR
          simp only [walkUp, hL, hR, Option.getD_some]
          by_cases heq : (getNode A l).Hash = (getNode A x).Hash
          · rw [if_pos heq]
            simp only [foldPath, if_pos rfl]
            have hstep : s ((getNode A x).Hash ++ (getNode A r).Hash) =
                (getNode A p2).Hash := by
              rw [hhash, heq]
            rw [hstep]
            exact ih p2 hpA (by omega)
          · rw [if_neg heq]
            have hxre : x = r := by
              rcases hor with h1 | h1
              · exfalso
                apply heq
                rw [h1]
              · exact h1
            simp only [foldPath, if_neg (by decide : ¬ (0 : Int) = 1)]
            have hstep : s ((getNode A l).Hash ++ (getNode A x).Hash) =
                (getNode A p2).Hash := by
              rw [hhash, hxre]
            rw [hstep]
            exact ih p2 hpA (by omega)

theorem getMerklePathAux_found {α ε : Type} (eqf : α → α → Except ε Bool)
    (A : List (Node α)) (target : α) (fuel : Nat) :
    ∀ (ls : List Nat) (path : List (List Nat)) (idx : List Int),
      getMerklePathAux eqf A target fuel ls = .ok (path, idx) →
      (∃ l ∈ ls, ∃ c, (getNode A l).C = some c ∧ eqf c target = .ok true) →
      ∃ l ∈ ls, (∃ c, (getNode A l).C = some c ∧ eqf c target = .ok true) ∧
        (path, idx) = walkUp A fuel l (getNode A l).Parent
  | [], path, idx, h, hex => by simp at hex
  | l0 :: ls, path, idx, h, hex => by
      cases hC : (getNode A l0).C with
      | none =>
          simp only [getMerklePathAux, hC] at h
          have hex2 : ∃ l ∈ ls, ∃ c, (getNode A l).C = some c ∧
              eqf c target = .ok true := by
            obtain ⟨l, hl, c, hc, he⟩ := hex
            rcases List.mem_cons.mp hl with rfl | hl2
            · rw [hC] at hc
              simp at hc
            · exact ⟨l, hl2, c, hc, he⟩
          obtain ⟨l, hl, hcc, hw⟩ :=
            getMerklePathAux_found eqf A target fuel ls path idx h hex2
          exact ⟨l, by simp [hl], hcc, hw⟩
      | some c0 =>
          cases he0 : eqf c0 target with
          | error e => simp [getMerklePathAux, hC, he0] at h
          | ok b =>
              cases b with
              | true =>
                  simp only [getMerklePathAux, hC, he0, Except.ok.injEq] at h
                  exact ⟨l0, by simp, ⟨c0, hC, he0⟩, h.symm⟩
              | false =>
                  simp only [getMerklePathAux, hC, he0] at h
                  have hex2 : ∃ l ∈ ls, ∃ c, (getNode A l).C = some c ∧
                      eqf c target = .ok true := by
                    obtain ⟨l, hl, c, hc, he⟩ := hex
                    rcases List.mem_cons.mp hl with rfl | hl2
                    · rw [hC] at hc
                      have hceq : c = c0 := (Option.some.inj hc).symm
                      subst hceq
                      rw [he0] at he
                      simp at he
                    · exact ⟨l, hl2, c, hc, he⟩
                  obtain ⟨l, hl, hcc, hw⟩ :=
                    getMerklePathAux_found eqf A target fuel ls path idx h hex2
                  exact ⟨l, by simp [hl], hcc, hw⟩

theorem getMerklePathAux_notFound {α ε : Type} (eqf : α → α → Except ε Bool)
    (A : List (Node α)) (target : α) (fuel : Nat) :
    ∀ ls : List Nat,
      (∀ l ∈ ls, ∀ c, (getNode A l).C = some c → eqf c target = .ok false) →
      getMerklePathAux eqf A target fuel ls = .ok ([], [])
  | [], _ => rfl
  | l0 :: ls, h => by
      have hrec := getMerklePathAux_notFound eqf A target fuel ls
        (fun l hl c hc => h l (by simp [hl]) c hc)
      cases hC : (getNode A l0).C with
      | none => simp only [getMerklePathAux, hC, hrec]
      | some c0 =>
          have hf := h l0 (by simp) c0 hC
          simp only [getMerklePathAux, hC, hf, hrec]

theorem getMerklePathAux_error {α ε : Type} (eqf : α → α → Except ε Bool)
    (A : List (Node α)) (target : α) (fuel : Nat) :
    ∀ (pre : List Nat) (l : Nat) (post : List Nat) (c : α) (e : ε),
      (∀ l2 ∈ pre, ∀ c2, (getNode A l2).C = some c2 → eqf c2 target = .ok false) →
      (getNode A l).C = some c → eqf c target = .error e →
      getMerklePathAux eqf A target fuel (pre ++ l :: post) = .error e
  | [], l, post, c, e, hpre, hC, he => by
      simp only [List.nil_append, getMerklePathAux, hC, he]
  | l0 :: pre, l, post, c, e, hpre, hC, he => by
      have hrec := getMerklePathAux_error eqf A target fuel pre l post c e
        (fun l2 hl2 c2 hc2 => hpre l2 (by simp [hl2]) c2 hc2) hC he
      cases hC0 : (getNode A l0).C with
      | none => simp only [List.cons_append, getMerklePathAux, hC0, List.append_eq, hrec]
      | some c0 =>
          have hf := hpre l0 (by simp) c0 hC0
          simp only [List.cons_append, getMerklePathAux, hC0, hf, List.append_eq, hrec]

theorem md5_length (msg : List Nat) : (md5 msg).length = 16 := by
  unfold md5
  set st := (chunksOf64 (md5Pad msg)).foldl
    (fun st ch => md5Chunk (wordsOfBytes ch) st)
    (0x67452301, 0xefcdab89, 0x98badcfe, 0x10325476) with hst
  rcases st with ⟨a, b, c, d⟩
  simp [wordToBytes]

/-! ### The claim theorems -/

/-- C1: for every successfully built tree and every target content present in
it (some leaf's `Equals` answers true), when `GetMerklePath` returns a path
and direction list, folding the sibling digests into the matched leaf's
digest — sibling on the right for marker `1`, on the left for marker `0`,
hashing each concatenation with the tree's strategy — reproduces the tree's
root digest exactly. -/
theorem C1_path_fold_roundtrip {α ε : Type} (s : List Nat → List Nat)
    (calcHash : α → Except ε (List Nat)) (eqf : α → α → Except ε Bool)
    (cs : List α) (t : MerkleTree α) (target : α)
    (path : List (List Nat)) (idx : List Int)
    (hb : newTreeWith s calcHash cs = .ok t)
    (hp : GetMerklePath eqf t target = .ok (path, idx))
    (hfound : ∃ l ∈ t.Leafs, ∃ c, (getNode t.arena l).C = some c ∧
      eqf c target = .ok true) :
    ∃ l ∈ t.Leafs, (∃ c, (getNode t.arena l).C = some c ∧ eqf c target = .ok true) ∧
      foldPath s (getNode t.arena l).Hash path idx = t.merkleRoot := by
  have hinv := newTreeWith_invT s calcHash cs t hb
  obtain ⟨hleafs, hlen, _, _⟩ := newTreeWith_leafFacts s calcHash cs t hb
  obtain ⟨L, _, _, _, _, h5, _⟩ := newTreeWith_parts s calcHash cs t hb
  unfold GetMerklePath at hp
  obtain ⟨l, hl, hcc, hw⟩ := getMerklePathAux_found eqf t.arena target t.arena.length
    t.Leafs path idx hp hfound
  refine ⟨l, hl, hcc, ?_⟩
  have hlbound : l < t.arena.length := by
    rw [hleafs, List.mem_range] at hl
    have hlen2 := hlen
    rw [hleafs, List.length_range] at hlen2
    omega
  have hfold := walkUp_fold s t.arena t.Root hinv t.arena.length l hlbound (by omega)
  rw [← hw] at hfold
  rw [h5]
  exact hfold

/-- Witness for C1 at the concrete tree over `[1, 2, 3, 4]` with target `3`. -/
theorem C1_witness :
    ∃ l ∈ demoT.Leafs, (∃ c, (getNode demoT.arena l).C = some c ∧
      demoEq c 3 = .ok true) ∧
      foldPath demoS (getNode demoT.arena l).Hash demoPath demoIdx = demoT.merkleRoot :=
  C1_path_fold_roundtrip demoS demoCalc demoEq [1, 2, 3, 4] demoT 3 demoPath demoIdx
    rfl rfl ⟨2, by decide, 3, rfl, rfl⟩

/-- C2: in every successfully built tree, every node with children carries
the strategy digest of the concatenation of its left child's hash followed
by its right child's hash, in that fixed order; the single-child pairing
case is the instance `l = r` of the same equation (the one hash is
concatenated with itself). -/
theorem C2_internal_node_hash {α ε : Type} (s : List Nat → List Nat)
    (calcHash : α → Except ε (List Nat)) (cs : List α) (t : MerkleTree α)
    (hb : newTreeWith s calcHash cs = .ok t) :
    ∀ p, p < t.arena.length → ∀ l r, (getNode t.arena p).Left = some l →
      (getNode t.arena p).Right = some r →
      (getNode t.arena p).Hash =
        s ((getNode t.arena l).Hash ++ (getNode t.arena r).Hash) := by
  intro p hp l r hL hR
  exact ((newTreeWith_invT s calcHash cs t hb).hashed p hp l r hL hR).2.2

/-- Witness for C2 at the first internal node of the tree over `[1, 2, 3, 4]`. -/
theorem C2_witness :
    (getNode demoT.arena 4).Hash =
      demoS ((getNode demoT.arena 0).Hash ++ (getNode demoT.arena 1).Hash) :=
  C2_internal_node_hash demoS demoCalc [1, 2, 3, 4] demoT rfl 4 (by decide) 0 1 rfl rfl

/-- C3 counterexample: in the tree over six items the middle level has three
nodes, and the builder pairs the lone third node (id 8) with itself — the
parent node 10 holds the very same child id on both sides, an alias of the
existing node rather than a fresh duplicate object.  The arena holds exactly
12 nodes (6 + 3 + 2 + 1), so no fresh pad node was allocated above the leaf
level, and no node above the leaves carries the duplicate flag. -/
theorem C3_counterexample :
    (getNode demoT6.arena 10).Left = some 8 ∧
    (getNode demoT6.arena 10).Right = some 8 ∧
    demoT6.arena.length = 12 ∧
    (demoT6.arena.drop 6).all (fun n => !n.dup) = true := by decide

/-- C3 (amended): when a level above the leaves has odd length, the builder
applies the duplicate-last-element rule only in digest terms, by pairing
the lone last node with itself: the new parent's left and right child are
the *same* existing node id — an alias, not a fresh node object.  Exactly
`ceil(n/2)` nodes are allocated for the level (no fresh pad node), and no
allocated parent node carries the duplicate flag or the leaf flag. -/
theorem C3_amended_odd_level_self_pair {α : Type} (s : List Nat → List Nat)
    (nl : List Nat) (A : List (Node α)) (hb : ∀ y ∈ nl, y < A.length)
    (hodd : nl.length % 2 = 1) :
    (pairStep s nl A).1.length = A.length + (nl.length + 1) / 2 ∧
    (∃ y, A.length ≤ y ∧ y < (pairStep s nl A).1.length ∧
      (getNode (pairStep s nl A).1 y).Left = some (nl.getLast?.getD 0) ∧
      (getNode (pairStep s nl A).1 y).Right = some (nl.getLast?.getD 0)) ∧
    (∀ y, A.length ≤ y → y < (pairStep s nl A).1.length →
      (getNode (pairStep s nl A).1 y).dup = false ∧
      (getNode (pairStep s nl A).1 y).leaf = false) := by
  refine ⟨pairStep_len s nl A, pairStep_oddlast s nl A hb hodd, ?_⟩
  intro y h1 h2
  have hfr := pairStep_fresh s nl A hb y h1 h2
  exact ⟨hfr.2.2.1, hfr.2.1⟩

/-- Witness for the amended C3 on a concrete three-node level. -/
theorem C3_amended_witness :
    (pairStep demoS [0, 1, 2] arena3).1.length =
      arena3.length + (([0, 1, 2] : List Nat).length + 1) / 2 ∧
    (∃ y, arena3.length ≤ y ∧ y < (pairStep demoS [0, 1, 2] arena3).1.length ∧
      (getNode (pairStep demoS [0, 1, 2] arena3).1 y).Left =
        some (([0, 1, 2] : List Nat).getLast?.getD 0) ∧
      (getNode (pairStep demoS [0, 1, 2] arena3).1 y).Right =
        some (([0, 1, 2] : List Nat).getLast?.getD 0)) ∧
    (∀ y, arena3.length ≤ y → y < (pairStep demoS [0, 1, 2] arena3).1.length →
      (getNode (pairStep demoS [0, 1, 2] arena3).1 y).dup = false ∧
      (getNode (pairStep demoS [0, 1, 2] arena3).1 y).leaf = false) :=
  C3_amended_odd_level_self_pair demoS [0, 1, 2] arena3 (by decide) (by decide)

/-- C4: for every odd-length content list whose build succeeds, the leaf
pointer list is `0, …, n` (length `n + 1`); the two final leaves (arena
slots `n - 1` and `n` — distinct node objects) carry identical digests and
the same content reference, only the last is flagged as duplicate. -/
theorem C4_odd_input_padding {α ε : Type} (s : List Nat → List Nat)
    (calcHash : α → Except ε (List Nat)) (cs : List α) (t : MerkleTree α)
    (hodd : cs.length % 2 = 1) (hb : newTreeWith s calcHash cs = .ok t) :
    t.Leafs = List.range (cs.length + 1) ∧
    t.Leafs.length = cs.length + 1 ∧
    (getNode t.arena cs.length).Hash = (getNode t.arena (cs.length - 1)).Hash ∧
    (getNode t.arena cs.length).dup = true ∧
    (getNode t.arena (cs.length - 1)).dup = false ∧
    (getNode t.arena cs.length).C = (getNode t.arena (cs.length - 1)).C ∧
    cs.length ≠ cs.length - 1 := by
  obtain ⟨hleafs, hlen2, hksp, hdup⟩ := newTreeWith_leafFacts s calcHash cs t hb
  obtain ⟨hh, hcc, hlf, hdp⟩ := hdup hodd
  have h1 : 1 ≤ cs.length := by omega
  rw [if_pos hodd] at hleafs
  obtain ⟨c, hsh, _, _, _, _, _, hdupf⟩ := hksp (cs.length - 1) (by omega)
  exact ⟨hleafs, by rw [hleafs, List.length_range], hh, hdp, hdupf, hcc, by omega⟩

/-- Witness for C4 at the tree over the odd list `[1, 2, 3]`. -/
theorem C4_witness :
    demoT3.Leafs = List.range (([1, 2, 3] : List Nat).length + 1) ∧
    demoT3.Leafs.length = ([1, 2, 3] : List Nat).length + 1 ∧
    (getNode demoT3.arena 3).Hash = (getNode demoT3.arena 2).Hash ∧
    (getNode demoT3.arena 3).dup = true ∧
    (getNode demoT3.arena 2).dup = false ∧
    (getNode demoT3.arena 3).C = (getNode demoT3.arena 2).C ∧
    ([1, 2, 3] : List Nat).length ≠ ([1, 2, 3] : List Nat).length - 1 :=
  C4_odd_input_padding demoS demoCalc [1, 2, 3] demoT3 (by decide) rfl

/-- C5: building from the empty list fails with the construction error
`emptyInput`; a digest failure at any item (all earlier items digesting
fine) propagates that error unchanged as `digestError`; and every build
failure is one of exactly these two — when construction fails no tree
value exists, since the result is the error alone. -/
theorem C5_empty_input_and_failure {α ε : Type} (s : List Nat → List Nat)
    (calcHash : α → Except ε (List Nat)) :
    (buildWithContent s calcHash ([] : List α) = .error .emptyInput) ∧
    (∀ (pre : List α) (c : α) (post : List α) (e : ε),
      (∀ c2 ∈ pre, ∃ h, calcHash c2 = .ok h) → calcHash c = .error e →
      newTreeWith s calcHash (pre ++ c :: post) = .error (.digestError e)) ∧
    (∀ (cs : List α) (err : BuildError ε), newTreeWith s calcHash cs = .error err →
      (err = .emptyInput ∧ cs = []) ∨
      (∃ e, err = .digestError e ∧ ∃ c ∈ cs, calcHash c = .error e)) := by
  refine ⟨by simp [buildWithContent], ?_, ?_⟩
  · intro pre c post e hpre hc
    have hfe := buildLeafs_firstError calcHash pre c post e hpre hc
    unfold newTreeWith buildWithContent
    rw [if_neg (by simp), hfe]
  · intro cs err herr
    unfold newTreeWith at herr
    cases hbc : buildWithContent s calcHash cs with
    | ok v =>
        obtain ⟨a, b, c2⟩ := v
        rw [hbc] at herr
        simp at herr
    | error e2 =>
        rw [hbc] at herr
        simp only [Except.error.injEq] at herr
        subst herr
        unfold buildWithContent at hbc
        by_cases hcs : cs.length = 0
        · rw [if_pos hcs] at hbc
          simp only [Except.error.injEq] at hbc
          refine Or.inl ⟨hbc.symm, ?_⟩
          cases cs with
          | nil => rfl
          | cons a l => simp at hcs
        · rw [if_neg hcs] at hbc
          cases hL : buildLeafs calcHash cs with
          | error e3 =>
              rw [hL] at hbc
              simp only [Except.error.injEq] at hbc
              obtain ⟨c2, hmem, hcalc⟩ := buildLeafs_error calcHash cs e3 hL
              exact Or.inr ⟨e3, hbc.symm, c2, hmem, hcalc⟩
          | ok L =>
              rw [hL] at hbc
              simp at hbc

/-- Witness for C5: the empty build, a failing digest at item `2` of
`[1, 2, 3]`, and the error characterization at that same failing build. -/
theorem C5_witness :
    (buildWithContent demoS demoCalc ([] : List Nat) = .error .emptyInput) ∧
    (newTreeWith demoS demoCalcErr ([1] ++ 2 :: [3]) = .error (.digestError ())) ∧
    (((BuildError.digestError () : BuildError Unit) = .emptyInput ∧
        ([1, 2, 3] : List Nat) = []) ∨
      (∃ e, (BuildError.digestError () : BuildError Unit) = .digestError e ∧
        ∃ c ∈ ([1, 2, 3] : List Nat), demoCalcErr c = .error e)) :=
  ⟨(C5_empty_input_and_failure demoS demoCalc).1,
   (C5_empty_input_and_failure demoS demoCalcErr).2.1 [1] 2 [3] ()
     (by
       intro c2 hc2
       simp only [List.mem_singleton] at hc2
       subst hc2
       exact ⟨[1], rfl⟩)
     rfl,
   (C5_empty_input_and_failure demoS demoCalcErr).2.2 [1, 2, 3] (.digestError ()) rfl⟩

/-- C6: when no leaf's content equals the target and every equality test
succeeds (returns false), `GetMerklePath` returns empty sibling and
direction lists with no error (Go's `nil, nil, nil`); when instead an
equality test fails before any match, the walk aborts and surfaces exactly
that error — two distinct outcomes. -/
theorem C6_not_found_vs_error {α ε : Type} (eqf : α → α → Except ε Bool) :
    (∀ (m : MerkleTree α) (target : α),
      (∀ l ∈ m.Leafs, ∀ c, (getNode m.arena l).C = some c →
        eqf c target = .ok false) →
      GetMerklePath eqf m target = .ok ([], [])) ∧
    (∀ (m : MerkleTree α) (target : α) (pre : List Nat) (l : Nat)
        (post : List Nat) (c : α) (e : ε),
      m.Leafs = pre ++ l :: post →
      (∀ l2 ∈ pre, ∀ c2, (getNode m.arena l2).C = some c2 →
        eqf c2 target = .ok false) →
      (getNode m.arena l).C = some c → eqf c target = .error e →
      GetMerklePath eqf m target = .error e) := by
  constructor
  · intro m target hall
    exact getMerklePathAux_notFound eqf m.arena target m.arena.length m.Leafs hall
  · intro m target pre l post c e hsplit hpre hC he
    unfold GetMerklePath
    rw [hsplit]
    exact getMerklePathAux_error eqf m.arena target m.arena.length pre l post c e
      hpre hC he

/-- Witness for C6: target `99` is absent from the tree over `[1, 2, 3, 4]`
(empty result, no error), while the equality function failing on item `3`
surfaces its error. -/
theorem C6_witness :
    GetMerklePath demoEq demoT 99 = .ok ([], []) ∧
    GetMerklePath demoEqErr demoT 99 = .error () := by
  constructor
  · apply (C6_not_found_vs_error demoEq).1
    intro l hl c hc
    rw [show demoT.Leafs = [0, 1, 2, 3] from rfl] at hl
    fin_cases hl
    · injection hc.symm.trans (show (getNode demoT.arena 0).C = some 1 from rfl)
        with h2
      rw [h2]
      rfl
    · injection hc.symm.trans (show (getNode demoT.arena 1).C = some 2 from rfl)
        with h2
      rw [h2]
      rfl
    · injection hc.symm.trans (show (getNode demoT.arena 2).C = some 3 from rfl)
        with h2
      rw [h2]
      rfl
    · injection hc.symm.trans (show (getNode demoT.arena 3).C = some 4 from rfl)
        with h2
      rw [h2]
      rfl
  · apply (C6_not_found_vs_error demoEqErr).2 demoT 99 [0, 1] 2 [3] 3 () rfl
    · intro l2 hl2 c2 hc2
      fin_cases hl2
      · injection hc2.symm.trans (show (getNode demoT.arena 0).C = some 1 from rfl)
          with h2
        rw [h2]
        rfl
      · injection hc2.symm.trans (show (getNode demoT.arena 1).C = some 2 from rfl)
          with h2
        rw [h2]
        rfl
    · rfl
    · rfl

/-- C7: in every successfully built tree each original leaf's hash is
exactly the digest its content's own `CalculateHash` produced — for any
strategy, since leaf hashing never consults it — while every node with
children is hashed with the tree's strategy; and under the default
strategy of `NewTree` (md5) the root digest is a 16-byte (128-bit)
sequence. -/
theorem C7_leaf_digest_and_default_strategy {α ε : Type} :
    (∀ (s : List Nat → List Nat) (calcHash : α → Except ε (List Nat))
       (cs : List α) (t : MerkleTree α), newTreeWith s calcHash cs = .ok t →
       ∀ k, k < cs.length → ∃ c, cs[k]? = some c ∧
         calcHash c = .ok (getNode t.arena k).Hash) ∧
    (∀ (s : List Nat → List Nat) (calcHash : α → Except ε (List Nat))
       (cs : List α) (t : MerkleTree α), newTreeWith s calcHash cs = .ok t →
       ∀ p, p < t.arena.length → ∀ l r, (getNode t.arena p).Left = some l →
         (getNode t.arena p).Right = some r →
         (getNode t.arena p).Hash =
           s ((getNode t.arena l).Hash ++ (getNode t.arena r).Hash)) ∧
    (∀ (calcHash : α → Except ε (List Nat)) (cs : List α) (t : MerkleTree α),
       NewTree calcHash cs = .ok t → t.merkleRoot.length = 16) := by
  refine ⟨?_, ?_, ?_⟩
  · intro s calcHash cs t hb k hk
    obtain ⟨_, _, hksp, _⟩ := newTreeWith_leafFacts s calcHash cs t hb
    obtain ⟨c, hsh, hc1, hc2, hc3, _, _, _⟩ := hksp k hk
    exact ⟨c, hc1, by rw [hc3]; exact hc2⟩
  · intro s calcHash cs t hb p hp l r hL hR
    exact ((newTreeWith_invT s calcHash cs t hb).hashed p hp l r hL hR).2.2
  · intro calcHash cs t hb
    obtain ⟨_, w, hw⟩ := newTreeWith_rootHash md5 calcHash cs t hb
    rw [hw]
    exact md5_length w

/-- Witness for C7: leaf 2 of the demonstration tree, an internal node of
the same tree, and the md5 tree over `[1, 2, 3, 4]` with its 16-byte root. -/
theorem C7_witness :
    (∃ c, ([1, 2, 3, 4] : List Nat)[2]? = some c ∧
      demoCalc c = .ok (getNode demoT.arena 2).Hash) ∧
    (getNode demoT.arena 5).Hash =
      demoS ((getNode demoT.arena 2).Hash ++ (getNode demoT.arena 3).Hash) ∧
    demoMd5T.merkleRoot.length = 16 :=
  ⟨C7_leaf_digest_and_default_strategy.1 demoS demoCalc [1, 2, 3, 4] demoT rfl 2
     (by decide),
   C7_leaf_digest_and_default_strategy.2.1 demoS demoCalc [1, 2, 3, 4] demoT rfl 5
     (by decide) 2 3 rfl rfl,
   C7_leaf_digest_and_default_strategy.2.2 demoCalc [1, 2, 3, 4] demoMd5T rfl⟩

/-- C8: for every non-empty content list all of whose digests succeed, the
build succeeds; and the build is deterministic — two builds of the same
ordered list with the same strategy yield the same tree value, in
particular identical root digests.  (Digest determinism is inherent in the
model: `CalculateHash` is embedded as a function.) -/
theorem C8_success_and_determinism {α ε : Type} (s : List Nat → List Nat)
    (calcHash : α → Except ε (List Nat)) (cs : List α) (hne : cs ≠ [])
    (hok : ∀ c ∈ cs, ∃ h, calcHash c = .ok h) :
    (∃ t, newTreeWith s calcHash cs = .ok t) ∧
    (∀ t t2, newTreeWith s calcHash cs = .ok t →
      newTreeWith s calcHash cs = .ok t2 → t.merkleRoot = t2.merkleRoot) := by
  constructor
  · obtain ⟨L, hL⟩ := buildLeafs_ok calcHash cs hok
    unfold newTreeWith buildWithContent
    rw [if_neg (by cases cs with | nil => exact absurd rfl hne | cons a l => simp), hL]
    exact ⟨_, rfl⟩
  · intro t t2 h1 h2
    rw [h1] at h2
    injection h2 with h3
    rw [h3]

/-- Witness for C8 at the list `[1, 2, 3, 4]`. -/
theorem C8_witness :
    (∃ t, newTreeWith demoS demoCalc [1, 2, 3, 4] = .ok t) ∧
    (∀ t t2, newTreeWith demoS demoCalc [1, 2, 3, 4] = .ok t →
      newTreeWith demoS demoCalc [1, 2, 3, 4] = .ok t2 →
      t.merkleRoot = t2.merkleRoot) :=
  C8_success_and_determinism demoS demoCalc [1, 2, 3, 4] (by simp)
    (fun c _ => ⟨[c], rfl⟩)

theorem swapL_length {α : Type} (l : List α) (i j : Nat) :
    (swapL l i j).length = l.length := by
  unfold swapL
  cases h1 : l[i]? with
  | none => rfl
  | some a =>
      cases h2 : l[j]? with
      | none => rfl
      | some b => simp [List.length_set]

theorem swapL_getElem? {α : Type} (l : List α) (i j : Nat) (a b : α)
    (hi : l[i]? = some a) (hj : l[j]? = some b) (hij : i ≠ j) :
    (swapL l i j)[i]? = some b ∧ (swapL l i j)[j]? = some a := by
  unfold swapL
  rw [hi, hj]
  have hilen : i < l.length := (List.getElem?_eq_some.mp hi).1
  have hjlen : j < l.length := (List.getElem?_eq_some.mp hj).1
  constructor
  · rw [List.getElem?_set_ne (Ne.symm hij), List.getElem?_set_self hilen]
  · rw [List.getElem?_set_self (by rw [List.length_set]; exact hjlen)]

theorem swapL_subset {α : Type} (l : List α) (i j : Nat) :
    ∀ a ∈ swapL l i j, a ∈ l := by
  intro a ha
  unfold swapL at ha
  cases h1 : l[i]? with
  | none =>
      rw [h1] at ha
      exact ha
  | some x =>
      cases h2 : l[j]? with
      | none =>
          rw [h1, h2] at ha
          exact ha
      | some y =>
          rw [h1, h2] at ha
          rcases List.mem_or_eq_of_mem_set ha with ha2 | rfl
          · rcases List.mem_or_eq_of_mem_set ha2 with ha3 | rfl
            · exact ha3
            · exact List.getElem?_mem h2
          · exact List.getElem?_mem h1

theorem combine_forall_length (s : List Nat → List Nat) (L : Nat)
    (hsl : ∀ x, (s x).length = L) :
    ∀ v : List (List Nat), ∀ h ∈ combine s v, h.length = L
  | [] => by simp [combine]
  | [a] => by
      intro h hmem
      simp only [combine, List.mem_singleton] at hmem
      subst hmem
      exact hsl _
  | a :: b :: v => by
      intro h hmem
      simp only [combine, List.mem_cons] at hmem
      rcases hmem with rfl | hm
      · exact hsl _
      · exact combine_forall_length s L hsl v h hm

theorem combine_inj (s : List Nat → List Nat) (L : Nat)
    (hinj : ∀ x y, x.length = 2 * L → y.length = 2 * L → s x = s y → x = y) :
    ∀ (v w : List (List Nat)), v.length = w.length →
      (∀ h ∈ v, h.length = L) → (∀ h ∈ w, h.length = L) →
      combine s v = combine s w → v = w
  | [], [], _, _, _, _ => rfl
  | [], b :: w, hlen, _, _, _ => by simp at hlen
  | a :: v, [], hlen, _, _, _ => by simp at hlen
  | [a], [b], hlen, hv, hw, hc => by
      simp only [combine, List.cons.injEq, and_true] at hc
      have ha : a.length = L := hv a (by simp)
      have hb2 : b.length = L := hw b (by simp)
      have hcat := hinj (a ++ a) (b ++ b) (by simp [ha]; omega) (by simp [hb2]; omega) hc
      rw [(List.append_inj hcat (by rw [ha, hb2])).1]
  | [a], b :: b2 :: w, hlen, _, _, _ => by simp at hlen
  | a :: a2 :: v, [b], hlen, _, _, _ => by simp at hlen
  | a :: a2 :: v, b :: b2 :: w, hlen, hv, hw, hc => by
      simp only [combine, List.cons.injEq] at hc
      obtain ⟨hhead, htail⟩ := hc
      have ha : a.length = L := hv a (by simp)
      have ha2 : a2.length = L := hv a2 (by simp)
      have hb : b.length = L := hw b (by simp)
      have hb2 : b2.length = L := hw b2 (by simp)
      have hcat := hinj (a ++ a2) (b ++ b2) (by simp [ha, ha2]; omega)
        (by simp [hb, hb2]; omega) hhead
      obtain ⟨e1, e2⟩ := List.append_inj hcat (by rw [ha, hb])
      have hrest := combine_inj s L hinj v w (by simp at hlen; omega)
        (fun h hm => hv h (by simp [hm])) (fun h hm => hw h (by simp [hm])) htail
      rw [e1, e2, hrest]

theorem reduceLevels_inj (s : List Nat → List Nat) (L : Nat)
    (hsl : ∀ x, (s x).length = L)
    (hinj : ∀ x y, x.length = 2 * L → y.length = 2 * L → s x = s y → x = y) :
    ∀ (n : Nat) (v w : List (List Nat)), v.length ≤ n → v.length = w.length →
      1 ≤ v.length → (∀ h ∈ v, h.length = L) → (∀ h ∈ w, h.length = L) →
      reduceLevels s v = reduceLevels s w → v = w := by
  intro n
  induction n with
  | zero =>
      intro v w h1 _ h3 _ _ _
      omega
  | succ n2 ih =>
      intro v w hle hlen h1 hv hw hred
      cases v with
      | nil => simp at h1
      | cons a v2 =>
          cases w with
          | nil => simp at hlen
          | cons b w2 =>
              cases v2 with
              | nil =>
                  cases w2 with
                  | nil =>
                      simp only [reduceLevels] at hred
                      rw [hred]
                  | cons b2 w3 => simp at hlen
              | cons a2 v3 =>
                  cases w2 with
                  | nil => simp at hlen
                  | cons b2 w3 =>
                      rw [reduceLevels_step s _ (by simp),
                        reduceLevels_step s (b :: b2 :: w3) (by simp)] at hred
                      have hclen : (combine s (a :: a2 :: v3)).length =
                          (combine s (b :: b2 :: w3)).length := by
                        rw [combine_length, combine_length]
                        simp only [List.length_cons]
                        simp only [List.length_cons] at hlen
                        omega
                      have hcomb := ih (combine s (a :: a2 :: v3))
                        (combine s (b :: b2 :: w3))
                        (by rw [combine_length]; simp only [List.length_cons] at hle ⊢; omega)
                        hclen
                        (by rw [combine_length]; simp only [List.length_cons]; omega)
                        (combine_forall_length s L hsl _)
                        (combine_forall_length s L hsl _)
                        hred
                      exact combine_inj s L hinj _ _ hlen hv hw hcomb

/-- C9 counterexample: two distinct content items whose digests differ (the
empty byte slice and `[1]`) are swapped, yet `NewTree` (the default md5
build) produces the same root digest for both orders, because the two
concatenation orders of the leaf digests are the same byte sequence.  The
input is not a duplicate-pad case (two items, even count, no padding). -/
theorem C9_counterexample :
    (calc9 false = .ok [] ∧ calc9 true = .ok [1] ∧ ([] : List Nat) ≠ [1]) ∧
    NewTree calc9 [false, true] = .ok t9a ∧
    NewTree calc9 [true, false] = .ok t9b ∧
    ([false, true] : List Bool).length % 2 = 0 ∧
    t9a.merkleRoot = t9b.merkleRoot :=
  ⟨⟨rfl, rfl, by decide⟩, rfl, rfl, rfl, rfl⟩

/-- C9 (amended): swapping two content items with different digests changes
the root digest *provided* the digests all share one fixed length `L` and
the strategy has fixed-length output and is injective on the
concatenations it hashes (inputs of length `2 L`).  Without the uniform
length (as with an empty digest) or with a strategy collision the root can
coincide, as the counterexample shows. -/
theorem C9_amended_swap_changes_root {α ε : Type} (s : List Nat → List Nat)
    (calcHash : α → Except ε (List Nat)) (cs : List α) (L i j : Nat)
    (t t2 : MerkleTree α) (ci cj : α) (di dj : List Nat)
    (hsl : ∀ x, (s x).length = L)
    (hinj : ∀ x y, x.length = 2 * L → y.length = 2 * L → s x = s y → x = y)
    (hdig : ∀ c ∈ cs, ∀ h, calcHash c = .ok h → h.length = L)
    (hij : i ≠ j) (hci : cs[i]? = some ci) (hcj : cs[j]? = some cj)
    (hdi : calcHash ci = .ok di) (hdj : calcHash cj = .ok dj) (hne : di ≠ dj)
    (hb : newTreeWith s calcHash cs = .ok t)
    (hb2 : newTreeWith s calcHash (swapL cs i j) = .ok t2) :
    t.merkleRoot ≠ t2.merkleRoot := by
  intro hroots
  have hilen : i < cs.length := (List.getElem?_eq_some.mp hci).1
  have hjlen : j < cs.length := (List.getElem?_eq_some.mp hcj).1
  obtain ⟨hv, _⟩ := newTreeWith_rootHash s calcHash cs t hb
  obtain ⟨hw, _⟩ := newTreeWith_rootHash s calcHash (swapL cs i j) t2 hb2
  obtain ⟨hleafs1, _, hksp1, hdup1⟩ := newTreeWith_leafFacts s calcHash cs t hb
  obtain ⟨hleafs2, _, hksp2, hdup2⟩ :=
    newTreeWith_leafFacts s calcHash (swapL cs i j) t2 hb2
  have hslen : (swapL cs i j).length = cs.length := swapL_length cs i j
  rw [hslen] at hleafs2 hksp2 hdup2
  have hdig2 : ∀ c ∈ swapL cs i j, ∀ h, calcHash c = .ok h → h.length = L :=
    fun c hc => hdig c (swapL_subset cs i j c hc)
  -- the two leaf-digest vectors
  have hm1 : cs.length ≤ (if cs.length % 2 = 1 then cs.length + 1 else cs.length) := by
    split <;> omega
  have hlv : ∀ h2 ∈ t.Leafs.map (fun k => (getNode t.arena k).Hash), h2.length = L := by
    intro h2 hmem
    rw [List.mem_map] at hmem
    obtain ⟨k, hk, rfl⟩ := hmem
    rw [hleafs1, List.mem_range] at hk
    by_cases hkc : k < cs.length
    · obtain ⟨c, hsh, hc1, hc2, hc3, _, _, _⟩ := hksp1 k hkc
      rw [hc3]
      exact hdig c (List.getElem?_mem hc1) hsh hc2
    · have hodd : cs.length % 2 = 1 := by
        by_contra hco
        rw [if_neg hco] at hk
        omega
      have hke : k = cs.length := by
        rw [if_pos hodd] at hk
        omega
      subst hke
      obtain ⟨hh, _, _, _⟩ := hdup1 hodd
      rw [hh]
      obtain ⟨c, hsh, hc1, hc2, hc3, _, _, _⟩ := hksp1 (cs.length - 1) (by omega)
      rw [hc3]
      exact hdig c (List.getElem?_mem hc1) hsh hc2
  have hlw : ∀ h2 ∈ t2.Leafs.map (fun k => (getNode t2.arena k).Hash),
      h2.length = L := by
    intro h2 hmem
    rw [List.mem_map] at hmem
    obtain ⟨k, hk, rfl⟩ := hmem
    rw [hleafs2, List.mem_range] at hk
    by_cases hkc : k < cs.length
    · obtain ⟨c, hsh, hc1, hc2, hc3, _, _, _⟩ := hksp2 k (by omega)
      rw [hc3]
      exact hdig2 c (List.getElem?_mem hc1) hsh hc2
    · have hodd : cs.length % 2 = 1 := by
        by_contra hco
        rw [if_neg hco] at hk
        omega
      have hke : k = cs.length := by
        rw [if_pos hodd] at hk
        omega
      subst hke
      obtain ⟨hh, _, _, _⟩ := hdup2 (by omega)
      rw [hh]
      obtain ⟨c, hsh, hc1, hc2, hc3, _, _, _⟩ := hksp2 (cs.length - 1) (by omega)
      rw [hc3]
      exact hdig2 c (List.getElem?_mem hc1) hsh hc2
  have hvlen : (t.Leafs.map (fun k => (getNode t.arena k).Hash)).length =
      (if cs.length % 2 = 1 then cs.length + 1 else cs.length) := by
    rw [List.length_map, hleafs1, List.length_range]
  have hwlen : (t2.Leafs.map (fun k => (getNode t2.arena k).Hash)).length =
      (if cs.length % 2 = 1 then cs.length + 1 else cs.length) := by
    rw [List.length_map, hleafs2, List.length_range]
  have hred : reduceLevels s (t.Leafs.map (fun k => (getNode t.arena k).Hash)) =
      reduceLevels s (t2.Leafs.map (fun k => (getNode t2.arena k).Hash)) := by
    rw [← hv, ← hw, hroots]
  have hveq := reduceLevels_inj s L hsl hinj
    (t.Leafs.map (fun k => (getNode t.arena k).Hash)).length
    (t.Leafs.map (fun k => (getNode t.arena k).Hash))
    (t2.Leafs.map (fun k => (getNode t2.arena k).Hash))
    le_rfl (by rw [hvlen, hwlen]) (by rw [hvlen]; split <;> omega) hlv hlw hred
  -- read off index i on both sides
  have hvi : (t.Leafs.map (fun k => (getNode t.arena k).Hash))[i]? = some di := by
    rw [hleafs1, List.getElem?_map, List.getElem?_range (by split <;> omega)]
    obtain ⟨c, hsh, hc1, hc2, hc3, _, _, _⟩ := hksp1 i hilen
    have hcci : c = ci := by
      rw [hc1] at hci
      exact Option.some.inj hci
    subst hcci
    rw [hc2] at hdi
    injection hdi with h4
    simp [hc3, h4]
  have hwi : (t2.Leafs.map (fun k => (getNode t2.arena k).Hash))[i]? = some dj := by
    rw [hleafs2, List.getElem?_map, List.getElem?_range (by split <;> omega)]
    obtain ⟨hsw1, hsw2⟩ := swapL_getElem? cs i j ci cj hci hcj hij
    obtain ⟨c, hsh, hc1, hc2, hc3, _, _, _⟩ := hksp2 i hilen
    have hccj : c = cj := by
      rw [hc1] at hsw1
      exact Option.some.inj hsw1
    subst hccj
    rw [hc2] at hdj
    injection hdj with h4
    simp [hc3, h4]
  rw [hveq] at hvi
  rw [hvi] at hwi
  exact hne (Option.some.inj hwi)

/-- Witness for the amended C9: the Cantor-pairing strategy on one-byte
digests over `[1, 2]` versus the swapped `[2, 1]`. -/
theorem C9_amended_witness : t9c.merkleRoot ≠ t9d.merkleRoot :=
  C9_amended_swap_changes_root pairS demoCalc [1, 2] 1 0 1 t9c t9d 1 2 [1] [2]
    (fun x => rfl)
    (by
      intro x y hx hy hp
      cases x with
      | nil => simp at hx
      | cons a x2 =>
          cases x2 with
          | nil => simp at hx
          | cons b x3 =>
              cases x3 with
              | cons c x4 => simp at hx
              | nil =>
                  cases y with
                  | nil => simp at hy
                  | cons a2 y2 =>
                      cases y2 with
                      | nil => simp at hy
                      | cons b2 y3 =>
                          cases y3 with
                          | cons c2 y4 => simp at hy
                          | nil =>
                              simp only [pairS, List.getD_cons_zero,
                                List.getD_cons_succ, List.cons.injEq,
                                and_true] at hp
                              obtain ⟨e1, e2⟩ := Nat.pair_eq_pair.mp hp
                              rw [e1, e2])
    (by
      intro c hc h hh
      injection hh with h2
      rw [← h2]
      rfl)
    (by decide) rfl rfl rfl rfl (by decide) rfl rfl

theorem getD_mem_of_lt (l : List Nat) (n : Nat) (h : n < l.length) :
    l.getD n 0 ∈ l := by
  rw [List.getD_eq_getElem?_getD, List.getElem?_eq_getElem h]
  simp [List.getElem_mem]

theorem build_first_level {α : Type} (s : List Nat → List Nat) (nl : List Nat)
    (A : List (Node α)) (hbd : ∀ y ∈ nl, y < A.length)
    (hnd : nl.Nodup) (k : Nat) (hk : 2 * k + 1 < nl.length) :
    ∃ p, (getNode (buildIntermediate s nl A).1 (nl.getD (2 * k) 0)).Parent = some p ∧
      (getNode (buildIntermediate s nl A).1 (nl.getD (2 * k + 1) 0)).Parent = some p ∧
      (getNode (buildIntermediate s nl A).1 p).Left = some (nl.getD (2 * k) 0) ∧
      (getNode (buildIntermediate s nl A).1 p).Right = some (nl.getD (2 * k + 1) 0) := by
  rw [buildIntermediate_eq, if_neg (by omega)]
  obtain ⟨hL, hR, hP1, hP2⟩ := pairStep_pos s nl A hbd hnd k hk
  have hx1 : nl.getD (2 * k) 0 < A.length := hbd _ (getD_mem_of_lt nl (2 * k) (by omega))
  have hx2 : nl.getD (2 * k + 1) 0 < A.length := hbd _ (getD_mem_of_lt nl (2 * k + 1) hk)
  by_cases h2e : nl.length = 2
  · rw [if_pos h2e]
    exact ⟨A.length + k, hP1, hP2, hL, hR⟩
  · rw [if_neg h2e]
    have hids : (pairStep s nl A).2 = List.range' A.length ((nl.length + 1) / 2) :=
      pairStep_ids s nl A
    have hlen1 : (pairStep s nl A).1.length = A.length + (nl.length + 1) / 2 :=
      pairStep_len s nl A
    have hbd2 : ∀ y ∈ (pairStep s nl A).2, y < (pairStep s nl A).1.length := by
      intro y hy
      rw [hids, List.mem_range'] at hy
      obtain ⟨i2, hi2, rfl⟩ := hy
      omega
    have hnotin1 : nl.getD (2 * k) 0 ∉ (pairStep s nl A).2 := by
      rw [hids, List.mem_range']
      rintro ⟨i2, hi2, he⟩
      omega
    have hnotin2 : nl.getD (2 * k + 1) 0 ∉ (pairStep s nl A).2 := by
      rw [hids, List.mem_range']
      rintro ⟨i2, hi2, he⟩
      omega
    have hu1 := buildIntermediate_untouched s (pairStep s nl A).2.length
      (pairStep s nl A).2 (pairStep s nl A).1 le_rfl hbd2 (nl.getD (2 * k) 0)
      (by omega) hnotin1
    have hu2 := buildIntermediate_untouched s (pairStep s nl A).2.length
      (pairStep s nl A).2 (pairStep s nl A).1 le_rfl hbd2 (nl.getD (2 * k + 1) 0)
      (by omega) hnotin2
    have hplt : A.length + k < (pairStep s nl A).1.length := by
      rw [hlen1]
      omega
    have he := eraseParent_fields (buildIntermediate_erase s
      (pairStep s nl A).2.length (pairStep s nl A).2 (pairStep s nl A).1 le_rfl
      (A.length + k) hplt)
    refine ⟨A.length + k, ?_, ?_, ?_, ?_⟩
    · rw [hu1]
      exact hP1
    · rw [hu2]
      exact hP2
    · rw [he.1]
      exact hL
    · rw [he.2.1]
      exact hR

/-- C10: the first step of `GetMerklePath`'s upward walk decides direction
by comparing hashes with the parent's *left* child: whenever that hash
equals the current node's hash the walk emits the parent's right child's
digest with marker `1`, regardless of which child the current node is.  In
particular, for an odd-length build the duplicate-pad leaf is genuinely the
right child of its parent while its hash equals the left child's, so its
first step emits its own digest with marker `1` — and the fold to the root
is unaffected, still reproducing the root digest. -/
theorem C10_walk_left_bias {α ε : Type} :
    (∀ (A : List (Node α)) (fuel x p : Nat),
      (getNode A ((getNode A p).Left.getD 0)).Hash = (getNode A x).Hash →
      walkUp A (fuel + 1) x (some p) =
        ((getNode A ((getNode A p).Right.getD 0)).Hash ::
           (walkUp A fuel p (getNode A p).Parent).1,
         1 :: (walkUp A fuel p (getNode A p).Parent).2)) ∧
    (∀ (s : List Nat → List Nat) (calcHash : α → Except ε (List Nat))
       (cs : List α) (t : MerkleTree α), cs.length % 2 = 1 →
       newTreeWith s calcHash cs = .ok t →
       ∃ p, (getNode t.arena cs.length).Parent = some p ∧
         (getNode t.arena p).Left = some (cs.length - 1) ∧
         (getNode t.arena p).Right = some cs.length ∧
         cs.length - 1 ≠ cs.length ∧
         (getNode t.arena (cs.length - 1)).Hash = (getNode t.arena cs.length).Hash ∧
         (∀ fuel, walkUp t.arena (fuel + 1) cs.length (some p) =
           ((getNode t.arena cs.length).Hash ::
              (walkUp t.arena fuel p (getNode t.arena p).Parent).1,
            1 :: (walkUp t.arena fuel p (getNode t.arena p).Parent).2)) ∧
         foldPath s (getNode t.arena cs.length).Hash
           (walkUp t.arena t.arena.length cs.length
             (getNode t.arena cs.length).Parent).1
           (walkUp t.arena t.arena.length cs.length
             (getNode t.arena cs.length).Parent).2 = t.merkleRoot) := by
  constructor
  · intro A fuel x p h
    simp only [walkUp]
    rw [if_pos h]
  · intro s calcHash cs t hodd hb
    obtain ⟨L, hL, hl2, hl3, hl4, hl5, hl6⟩ := newTreeWith_parts s calcHash cs t hb
    obtain ⟨hlen, _⟩ := buildLeafs_spec calcHash cs L hL
    obtain ⟨hleafs, hlenle, hksp, hdup⟩ := newTreeWith_leafFacts s calcHash cs t hb
    obtain ⟨hh, hcc, hlf, hdp⟩ := hdup hodd
    have hn1 : 1 ≤ cs.length := by omega
    have hplen : (padLeafs L).length = cs.length + 1 := by
      rw [padLeafs_length, hlen, if_pos hodd]
    -- the duplicate leaf is at odd position cs.length = 2 * k + 1
    have hkex : ∃ k, cs.length = 2 * k + 1 := ⟨(cs.length - 1) / 2, by omega⟩
    obtain ⟨k, hke⟩ := hkex
    have hbd : ∀ y ∈ List.range (padLeafs L).length, y < (padLeafs L).length := by
      intro y hy
      rwa [List.mem_range] at hy
    have hfl := build_first_level s (List.range (padLeafs L).length) (padLeafs L)
      hbd (List.nodup_range _) k (by rw [List.length_range]; omega)
    have hg1 : (List.range (padLeafs L).length).getD (2 * k) 0 = cs.length - 1 := by
      rw [List.getD_eq_getElem?_getD, List.getElem?_range (by omega)]
      simp only [Option.getD_some]
      omega
    have hg2 : (List.range (padLeafs L).length).getD (2 * k + 1) 0 = cs.length := by
      rw [List.getD_eq_getElem?_getD, List.getElem?_range (by omega)]
      simp only [Option.getD_some]
      omega
    rw [hg1, hg2] at hfl
    rw [← hl3] at hfl
    obtain ⟨p, hp1, hp2, hp3, hp4⟩ := hfl
    refine ⟨p, hp2, hp3, hp4, by omega, hh.symm, ?_, ?_⟩
    · intro fuel
      simp only [walkUp]
      rw [if_pos (by rw [hp3]; simp only [Option.getD_some]; exact hh.symm)]
      rw [hp4]
      simp only [Option.getD_some]
    · have hinv := newTreeWith_invT s calcHash cs t hb
      have hnlt : cs.length < t.arena.length := by
        have := hlenle
        rw [hleafs, if_pos hodd, List.length_range] at this
        omega
      have hfold := walkUp_fold s t.arena t.Root hinv t.arena.length cs.length hnlt
        (by omega)
      rw [hl5]
      exact hfold

/-- Witness for C10 at the tree over `[1, 2, 3]`: the first-step bias at
the duplicate leaf's parent (node 5), and the duplicate leaf 3 itself. -/
theorem C10_witness :
    (walkUp demoT3.arena 7 3 (some 5) =
      ((getNode demoT3.arena ((getNode demoT3.arena 5).Right.getD 0)).Hash ::
         (walkUp demoT3.arena 6 5 (getNode demoT3.arena 5).Parent).1,
       1 :: (walkUp demoT3.arena 6 5 (getNode demoT3.arena 5).Parent).2)) ∧
    ∃ p, (getNode demoT3.arena 3).Parent = some p ∧
      (getNode demoT3.arena p).Left = some 2 ∧
      (getNode demoT3.arena p).Right = some 3 ∧
      (2 : Nat) ≠ 3 ∧
      (getNode demoT3.arena 2).Hash = (getNode demoT3.arena 3).Hash ∧
      (∀ fuel, walkUp demoT3.arena (fuel + 1) 3 (some p) =
        ((getNode demoT3.arena 3).Hash ::
           (walkUp demoT3.arena fuel p (getNode demoT3.arena p).Parent).1,
         1 :: (walkUp demoT3.arena fuel p (getNode demoT3.arena p).Parent).2)) ∧
      foldPath demoS (getNode demoT3.arena 3).Hash
        (walkUp demoT3.arena demoT3.arena.length 3
          (getNode demoT3.arena 3).Parent).1
        (walkUp demoT3.arena demoT3.arena.length 3
          (getNode demoT3.arena 3).Parent).2 = demoT3.merkleRoot :=
  ⟨(C10_walk_left_bias (ε := Unit)).1 demoT3.arena 6 3 5 rfl,
   (C10_walk_left_bias (ε := Unit)).2 demoS demoCalc [1, 2, 3] demoT3 (by decide) rfl⟩
